import Mathlib

/-!
# Broadband-adapter patch (`cube/patches/bba/bba.c`): scheduler and driver model

A shallow embedding of the disc-read scheduler (`schedule_read`, `perform_read`,
`trickle_read`, `device_reset`), the lock filter (`exi_try_lock`), the EXI transport
(`exi_imm_write`, `exi_immex_write`, ...) and the receive/transmit engine (`bba_receive`,
`bba_interrupt`, `bba_transmit`).

Machine integers are natural numbers reduced modulo `2 ^ 32` (or `2 ^ 8`) where the C code
can wrap.  Calls that leave the file (`fsp_get_file`, `di_complete_transfer`, `read_frag`,
`eth_input`, the OS alarm primitives) are recorded in an event trace.
-/

namespace Bba

/-! ## Scheduler: data model -/

/-- Number of values of a `uint32_t` (also of a pointer and of `size_t` on the target). -/
abbrev WORD : Nat := 4294967296

/-- Conversion of a mathematical integer to `uint32_t` (reduction modulo `2 ^ 32`). -/
def wrap (x : Int) : Nat := (x % 4294967296).toNat

/-- The file-scope request record `dvd`. -/
structure Dvd where
  buffer : Nat
  length : Nat
  offset : Nat
  frag : Bool
deriving DecidableEq, Repr

/-- Calls that leave `bba.c`, in the order in which they are made.  The alarm events are
those on `read_alarm`, whose handler is always `trickle_read`. -/
inductive Event where
  | OSCancelAlarm
  | OSSetAlarm (ticks : Nat)
  | di_complete_transfer
  | fsp_get_file (offset length : Nat) (lock : Bool)
  | read_frag (buffer length offset : Nat) (size : Int)
  | dcache_store (buffer : Nat) (size : Int)
deriving DecidableEq, Repr

/-- The collaborators whose code is outside `bba.c`.  `read_frag` is indexed by the number
of calls made before, so that it may answer differently each time; `OSGetTick` is indexed
the same way.  `OSDiffTick`, `OSMicrosecondsToTicks` and `OSPhysicalToCached` are macros of
the platform headers. -/
structure World where
  is_frag_read : Nat → Nat → Bool
  read_frag : Nat → Nat → Nat → Nat → Int
  OSGetTick : Nat → Nat
  OSDiffTick : Nat → Nat → Nat
  OSMicrosecondsToTicks : Nat → Nat
  OSPhysicalToCached : Nat → Nat

/-- Mutable state seen by the scheduler: the request, the disc selector `*_disc2`, the
pending instance of `read_alarm` (its delay when armed), the number of `read_frag` and
`OSGetTick` calls made so far, and the trace. -/
structure State where
  dvd : Dvd
  disc2 : Nat
  read_alarm : Option Nat
  calls : Nat
  clock : Nat
  trace : List Event
deriving DecidableEq, Repr

/-! ## Scheduler: operations -/

/-- Source function `OSCancelAlarm(&read_alarm)`: the pending instance, if any, is removed. -/
def OSCancelAlarm (s : State) : State :=
  { s with read_alarm := none, trace := s.trace ++ [Event.OSCancelAlarm] }

/-- Source function `OSSetAlarm(&read_alarm, ticks, trickle_read)`. -/
def OSSetAlarm (s : State) (ticks : Nat) : State :=
  { s with read_alarm := some ticks, trace := s.trace ++ [Event.OSSetAlarm ticks] }

/-- Source function `di_complete_transfer()`. -/
def di_complete_transfer (s : State) : State :=
  { s with trace := s.trace ++ [Event.di_complete_transfer] }

/-- Source function `fsp_get_file(offset, length, lock)`. -/
def fsp_get_file (s : State) (offset length : Nat) (lock : Bool) : State :=
  { s with trace := s.trace ++ [Event.fsp_get_file offset length lock] }

/-- Source function `schedule_read(ticks, lock)`. -/
def schedule_read (w : World) (s : State) (ticks : Nat) (lock : Bool) : State :=
  let s := OSCancelAlarm s
  if s.dvd.length = 0 then
    di_complete_transfer s
  else
    let s := { s with dvd := { s.dvd with frag := w.is_frag_read s.dvd.offset s.dvd.length } }
    if s.dvd.frag = false then
      fsp_get_file s s.dvd.offset s.dvd.length lock
    else
      OSSetAlarm s ticks

/-- Source function `retry_read()`. -/
def retry_read (s : State) : State :=
  fsp_get_file s s.dvd.offset s.dvd.length true

/-- Source function `perform_read(address, length, offset)`; the disc selector goes to bit 31 of the
recorded offset. -/
def perform_read (w : World) (s : State) (address length offset : Nat) : State :=
  let s := { s with dvd := { s.dvd with
    buffer := w.OSPhysicalToCached address
    length := length
    offset := offset ||| ((s.disc2 <<< 31) % WORD) } }
  schedule_read w s (w.OSMicrosecondsToTicks 300) true

/-- Source function `trickle_read()`, the handler of `read_alarm`. -/
def trickle_read (w : World) (s : State) : State :=
  if s.dvd.length ≠ 0 ∧ s.dvd.frag = true then
    let start := w.OSGetTick s.clock
    let size := w.read_frag s.calls s.dvd.buffer s.dvd.length s.dvd.offset
    let stop := w.OSGetTick (s.clock + 1)
    let s := { s with
      calls := s.calls + 1
      clock := s.clock + 2
      trace := s.trace ++ [Event.read_frag s.dvd.buffer s.dvd.length s.dvd.offset size,
                           Event.dcache_store s.dvd.buffer size]
      dvd := { s.dvd with
        buffer := wrap (s.dvd.buffer + size)
        length := wrap (s.dvd.length - size)
        offset := wrap (s.dvd.offset + size) } }
    schedule_read w s (w.OSDiffTick stop start) true
  else
    s

/-- The platform delivering `read_alarm`: a pending instance is consumed and its handler
`trickle_read` runs; with nothing pending nothing runs. -/
def fire (w : World) (s : State) : State :=
  match s.read_alarm with
  | some _ => trickle_read w { s with read_alarm := none }
  | none => s

/-- The state after `n` deliveries of `read_alarm`. -/
def run (w : World) : Nat → State → State
  | 0, s => s
  | n + 1, s => fire w (run w n s)

/-- Modelled from the spec: `end_read`, the "end current read" collaborator that
`device_reset` calls; its code is not in `bba.c`.  The spec's words: the reset cancels any
pending trickle alarm before taking further action, and the collaborator must make the
device idle (no request in flight, `length == 0`). -/
def end_read (s : State) : State :=
  let s := OSCancelAlarm s
  { s with dvd := { s.dvd with length := 0 } }

/-- Source function `device_reset()`. -/
def device_reset (s : State) : State :=
  end_read s

/-- Source function `change_disc()`, as far as the scheduler state goes (`*_disc2 = !*_disc2`). -/
def change_disc (s : State) : State :=
  { s with disc2 := if s.disc2 = 0 then 1 else 0 }

/-! ## Scheduler: reading the trace -/

/-- One `read_frag` call: its three arguments and the size it returned. -/
structure FragCall where
  buffer : Nat
  length : Nat
  offset : Nat
  size : Int
deriving DecidableEq, Repr

/-- The `read_frag` calls of a trace, in order. -/
def fragCalls : List Event → List FragCall
  | [] => []
  | Event.read_frag b l o n :: es => ⟨b, l, o, n⟩ :: fragCalls es
  | _ :: es => fragCalls es

/-- The `fsp_get_file` calls of a trace, in order. -/
def fetches : List Event → List (Nat × Nat × Bool)
  | [] => []
  | Event.fsp_get_file o l k :: es => (o, l, k) :: fetches es
  | _ :: es => fetches es

/-- Number of `di_complete_transfer` calls in a trace. -/
def completions (es : List Event) : Nat :=
  es.count Event.di_complete_transfer

/-- Number of `OSSetAlarm` calls in a trace. -/
def alarmsSet : List Event → Nat
  | [] => 0
  | Event.OSSetAlarm _ :: es => alarmsSet es + 1
  | _ :: es => alarmsSet es

/-- Total of the sizes returned by the `read_frag` calls. -/
def consumed (cs : List FragCall) : Int :=
  (cs.map FragCall.size).sum

/-- A list of `read_frag` calls is chained from `(buffer, length, offset)` when the first
call has exactly these arguments and the following ones are chained from the position the
first one ended at. -/
def chained : Nat → Nat → Nat → List FragCall → Prop
  | _, _, _, [] => True
  | b, l, o, c :: cs =>
    c.buffer = b ∧ c.length = l ∧ c.offset = o ∧
      chained (wrap (b + c.size)) (wrap (l - c.size)) (wrap (o + c.size)) cs


/-- The `(buffer, length, offset)` a request that started at the given position has after
the given `read_frag` calls. -/
def endPos : Nat → Nat → Nat → List FragCall → Nat × Nat × Nat
  | b, l, o, [] => (b, l, o)
  | b, l, o, c :: cs => endPos (wrap (b + c.size)) (wrap (l - c.size)) (wrap (o + c.size)) cs

/-- The recorded offset of `perform_read`: bit 31 carries the disc selector. -/
def recordedOffset (s : State) (offset : Nat) : Nat :=
  offset ||| ((s.disc2 <<< 31) % WORD)

/-- The state `trickle_read` hands to `schedule_read`: one `read_frag` call made, its result
stored to memory, and the request advanced by the returned size. -/
def consume (w : World) (s : State) : State :=
  { s with
    calls := s.calls + 1
    clock := s.clock + 2
    trace := s.trace ++
      [Event.read_frag s.dvd.buffer s.dvd.length s.dvd.offset
         (w.read_frag s.calls s.dvd.buffer s.dvd.length s.dvd.offset),
       Event.dcache_store s.dvd.buffer
         (w.read_frag s.calls s.dvd.buffer s.dvd.length s.dvd.offset)]
    dvd := { s.dvd with
      buffer := wrap (s.dvd.buffer + w.read_frag s.calls s.dvd.buffer s.dvd.length s.dvd.offset)
      length := wrap (s.dvd.length - w.read_frag s.calls s.dvd.buffer s.dvd.length s.dvd.offset)
      offset := wrap (s.dvd.offset
        + w.read_frag s.calls s.dvd.buffer s.dvd.length s.dvd.offset) } }

/-- What holds of the state `r` and of the events `evs` appended since the request
`(b0, l0, o0)` started, as long as every classification came out fragmented and every
`read_frag` call returned between 0 and the length it was given. -/
structure TrickleInv (w : World) (t0 : List Event) (b0 l0 o0 : Nat) (n : Nat)
    (r : State) (evs : List Event) : Prop where
  trace_eq : r.trace = t0 ++ evs
  chain : chained b0 l0 o0 (fragCalls evs)
  pos : endPos b0 l0 o0 (fragCalls evs) = (r.dvd.buffer, r.dvd.length, r.dvd.offset)
  sizes : 0 ≤ consumed (fragCalls evs)
  total : consumed (fragCalls evs) + r.dvd.length = l0
  span : (r.dvd.offset + r.dvd.length) % WORD = (o0 + l0) % WORD
  no_fetch : fetches evs = []
  no_frag_after_done : r.dvd.length = 0 → r.read_alarm = none
  done_once : completions evs = if r.dvd.length = 0 then 1 else 0
  armed : r.dvd.length ≠ 0 → (∃ t, r.read_alarm = some t) ∧ r.dvd.frag = true
  progress : (∀ i b l o, l ≠ 0 → 1 ≤ w.read_frag i b l o) → r.dvd.length ≤ l0 - n
  off_exact : o0 + l0 < WORD → (r.dvd.offset : Int) = o0 + consumed (fragCalls evs)

/-! ## Lock filter -/

/-- Constants of `dolphin/exi.h` used by `exi_try_lock` and `exi_probe`; the header is not
part of `bba.c`, so their values are left open. -/
structure ExiHeader where
  EXI_STATE_LOCKED : Nat
  EXI_CHANNEL_0 : Int
  EXI_CHANNEL_2 : Int
  EXI_DEVICE_0 : Nat
  EXI_DEVICE_2 : Nat

/-- The fields of `EXIControl` that `exi_try_lock` reads. -/
structure EXIControl where
  state : Nat
  dev : Nat
deriving DecidableEq, Repr

/-- Source function `exi_probe(chan)`; `slot` is the value of `*VAR_EXI_SLOT`. -/
def exi_probe (k : ExiHeader) (slot : Int) (chan : Int) : Bool :=
  if chan = k.EXI_CHANNEL_2 then false
  else if chan = slot then false
  else true

/-- Source function `exi_try_lock(chan, dev, exi)`; `slot` is the value of `*VAR_EXI_SLOT`. -/
def exi_try_lock (k : ExiHeader) (slot : Int) (chan : Int) (dev : Nat) (exi : EXIControl) :
    Bool :=
  if (exi.state &&& k.EXI_STATE_LOCKED) = 0 ∨ exi.dev ≠ dev then false
  else if chan = k.EXI_CHANNEL_0 ∧ dev = k.EXI_DEVICE_2 then false
  else if chan = slot ∧ dev = k.EXI_DEVICE_0 then false
  else true

/-! ## EXI transport and the simulated adapter -/

def BBA_NCRA : Nat := 0x00
def BBA_NCRA_ST0 : Nat := 1 <<< 1
def BBA_NCRA_ST1 : Nat := 1 <<< 2
def BBA_IR : Nat := 0x09
def BBA_IR_RI : Nat := 1 <<< 1
def BBA_RWP : Nat := 0x16
def BBA_RRP : Nat := 0x18
def BBA_WRTXFIFOD : Nat := 0x48

/-- Bitwise complement of a 32-bit value (`~x` on an `int`). -/
def bnot32 (x : Nat) : Nat := 4294967295 - x

/-- The frame header at the start of a received page (`bba_header_t` of `bba.h`): the
fields `bba_receive` reads. -/
structure bba_header_t where
  next : Nat
  length : Nat
deriving DecidableEq, Repr

/-- Sizes fixed by `bba.h`, which is not part of `bba.c`. -/
structure Sizes where
  sizeof_bba_header_t : Nat
  sizeof_bba_page_t : Nat

/-- What the adapter is doing inside one chip-select window: waiting for the command
word, serving reads or writes at an address, or in a mode this model does not follow. -/
inductive Phase where
  | idle
  | rd (addr : Nat)
  | wr (addr : Nat)
  | other
deriving DecidableEq, Repr

/-- Transfers issued on EXI channel 0, as the controller sees them. -/
inductive Xfer where
  | select
  | deselect
  | imm_write (data len : Nat)
  | imm_read (len : Nat)
  | dma_read (len : Nat)
deriving DecidableEq, Repr

/-- Accesses as the adapter decodes them: a register read and the byte returned, the bytes
of one write transfer to a register, a block read of adapter memory. -/
inductive Access where
  | rd (reg val : Nat)
  | wr (reg : Nat) (bytes : List Nat)
  | blk (addr len : Nat)
deriving DecidableEq, Repr

/-- One `eth_input` call: the ring position the page was read from, its header, and the
payload size passed. -/
structure Dispatch where
  rrp : Nat
  page : bba_header_t
  size : Nat
deriving DecidableEq, Repr

/-- The hardware and collaborators below the driver.  `reg t r` is the byte register `r`
presents to the `t`-th register read (registers may change on their own), until the driver
writes the register, which fixes its value; `page a` is the header of the page stored at
adapter address `a`; `reads` counts the register reads served; `exi`, `log` and `input`
record the transfers, the decoded accesses and the `eth_input` calls. -/
structure Hw where
  reg : Nat → Nat → Nat
  page : Nat → bba_header_t
  reads : Nat
  phase : Phase
  exi : List Xfer
  log : List Access
  input : List Dispatch

/-- Source function `exi_select()`: chip select asserted, a new command window opens. -/
def exi_select (hw : Hw) : Hw :=
  { hw with phase := Phase.idle, exi := hw.exi ++ [Xfer.select] }

/-- Source function `exi_deselect()`. -/
def exi_deselect (hw : Hw) : Hw :=
  { hw with phase := Phase.idle, exi := hw.exi ++ [Xfer.deselect] }

/-- The first `len` bytes of a 32-bit word, most significant first: what a write transfer
of `len` bytes puts on the bus. -/
def topBytes (data len : Nat) : List Nat :=
  (List.range len).map (fun i => data / 2 ^ (8 * (3 - i)) % 256)

/-- The adapter's reaction to a write transfer.  The first word of a window is the command:
bit 31 selects the register file, bit 30 the direction, bits 8 to 23 the address.  Inside a
write window the bytes go to the addressed register. -/
def adapterWrite (hw : Hw) (data len : Nat) : Hw :=
  match hw.phase with
  | Phase.idle =>
    if data / 2147483648 % 2 = 1 then
      if data / 1073741824 % 2 = 1 then
        { hw with phase := Phase.wr (data / 256 % 65536) }
      else
        { hw with phase := Phase.rd (data / 256 % 65536) }
    else
      { hw with phase := Phase.other }
  | Phase.wr a =>
    { hw with
      log := hw.log ++ [Access.wr a (topBytes data len)]
      reg := match (topBytes data len).getLast? with
        | some v => fun t r => if r = a then v else hw.reg t r
        | none => hw.reg }
  | _ => hw

/-- The number of bytes the controller moves for the control word
`((len - 1) << 4) | ...`: its two-bit length field holds `len - 1`. -/
def tlen (len : Nat) : Nat :=
  ((len + 4294967295) % WORD) % 4 + 1

/-- Source function `exi_imm_write(data, len)`: one immediate write transfer; the wait for the controller
to finish is not modelled. -/
def exi_imm_write (hw : Hw) (data len : Nat) : Hw :=
  adapterWrite { hw with exi := hw.exi ++ [Xfer.imm_write data len] } data (tlen len)

/-- Source function `exi_imm_read(len)`: one immediate read transfer.  The adapter answers with the
addressed register in the top byte of the data register. -/
def exi_imm_read (hw : Hw) (len : Nat) : Nat × Hw :=
  let hw := { hw with exi := hw.exi ++ [Xfer.imm_read len] }
  match hw.phase with
  | Phase.rd a =>
    (((hw.reg hw.reads a % 256) <<< 24) >>> ((4 - len) * 8),
      { hw with reads := hw.reads + 1
                log := hw.log ++ [Access.rd a (hw.reg hw.reads a % 256)] })
  | _ => (0, hw)

/-- The load `*(uint32_t *)buf` on the big-endian target, for a host memory `mem` of bytes. -/
def load32 (mem : Nat → Nat) (buf : Nat) : Nat :=
  (mem buf % 256) * 16777216 + (mem (buf + 1) % 256) * 65536
    + (mem (buf + 2) % 256) * 256 + mem (buf + 3) % 256

/-- Source function `exi_immex_write(buf, len)`. -/
def exi_immex_write (mem : Nat → Nat) (hw : Hw) (buf len : Nat) : Hw :=
  let xlen := min len 4
  let hw := exi_imm_write hw (load32 mem buf) xlen
  if len - xlen ≠ 0 then
    exi_immex_write mem hw ((buf + xlen) % WORD) (len - xlen)
  else
    hw
termination_by len
decreasing_by omega

/-- Source function `exi_dma_read(buf, len)`: a DMA read of `len` rounded up to 32 bytes; the page that
arrives in `buf` is returned. -/
def exi_dma_read (hw : Hw) (len : Nat) : bba_header_t × Hw :=
  let hw := { hw with exi := hw.exi ++ [Xfer.dma_read (((len + 31) % WORD) &&& bnot32 31)] }
  match hw.phase with
  | Phase.rd a =>
    (hw.page a, { hw with log := hw.log ++ [Access.blk a (((len + 31) % WORD) &&& bnot32 31)] })
  | _ => (⟨0, 0⟩, hw)

/-- Source function `bba_in8(reg)`. -/
def bba_in8 (hw : Hw) (reg : Nat) : Nat × Hw :=
  let hw := exi_select hw
  let hw := exi_imm_write hw ((0x80 <<< 24 ||| reg <<< 8) % WORD) 4
  let r := exi_imm_read hw 1
  let hw := exi_deselect r.2
  (r.1 % 256, hw)

/-- Source function `bba_out8(reg, val)`. -/
def bba_out8 (hw : Hw) (reg val : Nat) : Hw :=
  let hw := exi_select hw
  let hw := exi_imm_write hw ((0xC0 <<< 24 ||| reg <<< 8) % WORD) 4
  let hw := exi_imm_write hw ((val <<< 24) % WORD) 1
  exi_deselect hw

/-- Source function `bba_ins(reg, val, len)`; the page read is returned. -/
def bba_ins (hw : Hw) (reg len : Nat) : bba_header_t × Hw :=
  let hw := exi_select hw
  let hw := exi_imm_write hw ((0x80 <<< 24 ||| reg <<< 8) % WORD) 4
  let r := exi_dma_read hw len
  (r.1, exi_deselect r.2)

/-- Source function `bba_outs(reg, val, len)`. -/
def bba_outs (mem : Nat → Nat) (hw : Hw) (reg val len : Nat) : Hw :=
  let hw := exi_select hw
  let hw := exi_imm_write hw ((0xC0 <<< 24 ||| reg <<< 8) % WORD) 4
  let hw := exi_immex_write mem hw val len
  exi_deselect hw

/-- The spin loop of `bba_transmit`, `while (bba_in8(BBA_NCRA) & (ST0 | ST1));`, with a
bound on the number of reads: `none` when the bound is reached while still spinning. -/
def bba_transmit_spin : Nat → Hw → Option Hw
  | 0, _ => none
  | fuel + 1, hw =>
    let r := bba_in8 hw BBA_NCRA
    if r.1 &&& (BBA_NCRA_ST0 ||| BBA_NCRA_ST1) ≠ 0 then bba_transmit_spin fuel r.2
    else some r.2

/-- Source function `bba_transmit(data, size)`, with the bound of `bba_transmit_spin`. -/
def bba_transmit (fuel : Nat) (mem : Nat → Nat) (hw : Hw) (data size : Nat) : Option Hw :=
  match bba_transmit_spin fuel hw with
  | none => none
  | some hw =>
    let hw := bba_outs mem hw BBA_WRTXFIFOD data size
    let r := bba_in8 hw BBA_NCRA
    some (bba_out8 r.2 BBA_NCRA (((r.1 &&& bnot32 BBA_NCRA_ST0) ||| BBA_NCRA_ST1) % 256))

/-- Source function `eth_input(page, bba->data, size)`: recorded. -/
def eth_input (hw : Hw) (rrp : Nat) (page : bba_header_t) (size : Nat) : Hw :=
  { hw with input := hw.input ++ [⟨rrp, page, size⟩] }

/-- Source function `bba_receive()`; the cache maintenance on the page buffer is not modelled. -/
def bba_receive (k : Sizes) (hw : Hw) : Bool × Hw :=
  let r1 := bba_in8 hw BBA_RWP
  let r2 := bba_in8 r1.2 BBA_RRP
  if r2.1 ≠ r1.1 then
    let p := bba_ins r2.2 ((r2.1 <<< 8) % 65536) k.sizeof_bba_page_t
    let size := wrap ((p.1.length : Int) - k.sizeof_bba_header_t)
    let hw := eth_input p.2 r2.1 p.1 size
    let hw := bba_out8 hw BBA_RRP (p.1.next % 256)
    let r3 := bba_in8 hw BBA_RWP
    (decide (p.1.next % 256 ≠ r3.1), r3.2)
  else
    (decide (r2.1 ≠ r1.1), r2.2)

/-- Source function `bba_interrupt()`. -/
def bba_interrupt (k : Sizes) (hw : Hw) : Hw :=
  let r := bba_in8 hw BBA_IR
  if r.1 &&& BBA_IR_RI ≠ 0 then
    let m := bba_receive k r.2
    if m.1 = true then
      bba_out8 m.2 BBA_IR ((r.1 &&& bnot32 BBA_IR_RI) % 256)
    else
      bba_out8 m.2 BBA_IR r.1
  else
    bba_out8 r.2 BBA_IR r.1

/-- Calling `bba_receive` until it returns false, at most `fuel` times: the values the
calls returned, in order, and the final state; `none` when the bound is reached first. -/
def drain (k : Sizes) : Nat → Hw → Option (List Bool × Hw)
  | 0, _ => none
  | fuel + 1, hw =>
    let m := bba_receive k hw
    if m.1 = true then (drain k fuel m.2).map (fun r => (true :: r.1, r.2))
    else some ([false], m.2)

/-- A ring holding the frames `fs` between read pointer `rrp` and write pointer `rwp`: the
page at each read position carries the next frame's header, whose `next` field (a page
index, 8 bits) is the following read position, the last one being `rwp`; the read pointer
meets the write pointer only at the end. -/
def ring (page : Nat → bba_header_t) (rwp : Nat) : Nat → List bba_header_t → Prop
  | rrp, [] => rrp = rwp
  | rrp, h :: hs => rrp ≠ rwp ∧ page (rrp * 256) = h ∧ h.next < 256 ∧ ring page rwp h.next hs

/-- The `eth_input` calls a drain of the ring `fs` from `rrp` is expected to make. -/
def walk (k : Sizes) : Nat → List bba_header_t → List Dispatch
  | _, [] => []
  | rrp, h :: hs =>
    ⟨rrp, h, wrap ((h.length : Int) - k.sizeof_bba_header_t)⟩ :: walk k h.next hs

/-- The read position after the ring frames `fs`. -/
def lastNext : Nat → List bba_header_t → Nat
  | rrp, [] => rrp
  | _, h :: hs => lastNext h.next hs

/-- The immediate writes expected of `exi_immex_write(buf, len)`: for each index below
`ceil(len / 4)`, the buffer position and the number of bytes. -/
def chunks (buf len : Nat) : List (Nat × Nat) :=
  (List.range ((len + 3) / 4)).map (fun i => ((buf + 4 * i) % WORD, min 4 (len - 4 * i)))

/-- The bytes written to the transmit FIFO port according to the adapter's log. -/
def fifoBytes : List Access → List Nat
  | [] => []
  | Access.wr r bs :: as => if r = BBA_WRTXFIFOD then bs ++ fifoBytes as else fifoBytes as
  | _ :: as => fifoBytes as

/-- The bytes of host memory from `buf` on. -/
def frameBytes (mem : Nat → Nat) (buf len : Nat) : List Nat :=
  (List.range len).map (fun j => mem (buf + j) % 256)

/-! ## Sample collaborators and states -/

/-- A sample collaborator set: nothing is fragmented, `read_frag` consumes everything. -/
def worldPlain : World where
  is_frag_read := fun _ _ => false
  read_frag := fun _ _ l _ => l
  OSGetTick := fun n => n
  OSDiffTick := fun a b => a - b
  OSMicrosecondsToTicks := fun us => us
  OSPhysicalToCached := fun a => a

/-- A sample collaborator set: everything is fragmented, `read_frag` consumes at most 40
bytes a call. -/
def worldTrickle : World where
  is_frag_read := fun _ _ => true
  read_frag := fun _ _ l _ => if l ≤ 40 then l else 40
  OSGetTick := fun n => 5 * n
  OSDiffTick := fun a b => a - b
  OSMicrosecondsToTicks := fun us => us
  OSPhysicalToCached := fun a => a

/-- The collaborators of the spec's second scenario as written: fragmented while the
offset is below 90, `read_frag` consuming 40 bytes on its first call and 10 afterwards. -/
def worldUntil90 : World where
  is_frag_read := fun o _ => decide (o < 90)
  read_frag := fun i _ _ _ => if i = 0 then 40 else 10
  OSGetTick := fun n => 5 * n
  OSDiffTick := fun a b => a - b
  OSMicrosecondsToTicks := fun us => us
  OSPhysicalToCached := fun a => a

/-- The same collaborators with the classification changing at offset 100. -/
def worldUntil100 : World where
  is_frag_read := fun o _ => decide (o < 100)
  read_frag := fun i _ _ _ => if i = 0 then 40 else 10
  OSGetTick := fun n => 5 * n
  OSDiffTick := fun a b => a - b
  OSMicrosecondsToTicks := fun us => us
  OSPhysicalToCached := fun a => a

/-- A request in the middle of a trickle sequence: 100 bytes left, alarm armed. -/
def pending : State :=
  { dvd := ⟨8192, 100, 50, true⟩, disc2 := 0, read_alarm := some 300, calls := 0, clock := 0,
    trace := [] }

/-- An idle scheduler with the first disc selected. -/
def idle : State :=
  { dvd := ⟨0, 0, 0, false⟩, disc2 := 0, read_alarm := none, calls := 0, clock := 0, trace := [] }


/-! ## Receive engine: sample adapter -/

/-- A sample adapter: write pointer 3, read pointer 1, frames on pages 1 and 2, all other
registers zero. -/
def hwSample : Hw :=
  { reg := fun _ r => if r = BBA_RWP then 3 else if r = BBA_RRP then 1 else 0
    page := fun a => if a = 256 then ⟨2, 64⟩ else if a = 512 then ⟨3, 104⟩ else ⟨0, 0⟩
    reads := 0, phase := Phase.idle, exi := [], log := [], input := [] }

/-- A sample adapter whose NCRA reads `ST0` (only) twice and then 0. -/
def hwStream : Hw :=
  { reg := fun t r => if r = BBA_NCRA then (if t < 2 then 2 else 0) else 0
    page := fun _ => ⟨0, 0⟩
    reads := 0, phase := Phase.idle, exi := [], log := [], input := [] }

/-- A sample adapter whose NCRA always reads `ST0` (only). -/
def hwBusy : Hw :=
  { reg := fun _ r => if r = BBA_NCRA then 2 else 0
    page := fun _ => ⟨0, 0⟩
    reads := 0, phase := Phase.idle, exi := [], log := [], input := [] }

/-- A sample adapter with the receive interrupt pending and the ring of `hwSample`. -/
def hwIrq : Hw :=
  { hwSample with reg := fun t r => if r = BBA_IR then 0xFF else hwSample.reg t r }

/-! # Theorems -/

/-! ## Scheduler: the three outcomes of `schedule_read` -/

theorem schedule_read_done (w : World) (s : State) (ticks : Nat) (lock : Bool)
    (h : s.dvd.length = 0) :
    schedule_read w s ticks lock =
      { s with read_alarm := none
               trace := s.trace ++ [Event.OSCancelAlarm, Event.di_complete_transfer] } := by
  simp [schedule_read, OSCancelAlarm, di_complete_transfer, h]

theorem schedule_read_fetch (w : World) (s : State) (ticks : Nat) (lock : Bool)
    (h : s.dvd.length ≠ 0) (hf : w.is_frag_read s.dvd.offset s.dvd.length = false) :
    schedule_read w s ticks lock =
      { s with read_alarm := none
               dvd := { s.dvd with frag := false }
               trace := s.trace ++
                 [Event.OSCancelAlarm, Event.fsp_get_file s.dvd.offset s.dvd.length lock] } := by
  simp [schedule_read, OSCancelAlarm, fsp_get_file, h, hf]

theorem schedule_read_arm (w : World) (s : State) (ticks : Nat) (lock : Bool)
    (h : s.dvd.length ≠ 0) (hf : w.is_frag_read s.dvd.offset s.dvd.length = true) :
    schedule_read w s ticks lock =
      { s with read_alarm := some ticks
               dvd := { s.dvd with frag := true }
               trace := s.trace ++ [Event.OSCancelAlarm, Event.OSSetAlarm ticks] } := by
  simp [schedule_read, OSCancelAlarm, OSSetAlarm, h, hf]

theorem run_of_no_alarm (w : World) (s : State) (h : s.read_alarm = none) (n : Nat) :
    run w n s = s := by
  induction n with
  | zero => rfl
  | succ n ih => simp [run, ih, fire, h]

theorem fragCalls_append (a b : List Event) :
    fragCalls (a ++ b) = fragCalls a ++ fragCalls b := by
  induction a with
  | nil => rfl
  | cons e es ih => cases e <;> simp [fragCalls, ih]

theorem fetches_append (a b : List Event) :
    fetches (a ++ b) = fetches a ++ fetches b := by
  induction a with
  | nil => rfl
  | cons e es ih => cases e <;> simp [fetches, ih]

theorem alarmsSet_append (a b : List Event) :
    alarmsSet (a ++ b) = alarmsSet a + alarmsSet b := by
  induction a with
  | nil => simp [alarmsSet]
  | cons e es ih => cases e <;> simp [alarmsSet, ih]; omega

theorem schedule_read_fragCalls (w : World) (s : State) (ticks : Nat) (lock : Bool) :
    fragCalls (schedule_read w s ticks lock).trace = fragCalls s.trace := by
  by_cases h : s.dvd.length = 0
  · rw [schedule_read_done w s ticks lock h]
    simp [fragCalls_append, fragCalls]
  · cases hf : w.is_frag_read s.dvd.offset s.dvd.length
    · rw [schedule_read_fetch w s ticks lock h hf]
      simp [fragCalls_append, fragCalls]
    · rw [schedule_read_arm w s ticks lock h hf]
      simp [fragCalls_append, fragCalls]

/-! ## C1, C3, C6 -/

/-- C1 (as amended): for every `perform_read(address, length, offset)` with non-zero length
for which `is_frag_read` reports false on the recorded `(offset, length)`, exactly one
`fsp_get_file` call occurs; it carries the recorded offset (the original offset with bit 31
set from `*_disc2`, hence the original offset itself when `*_disc2` is zero), the full
original length and `lock = true`; no alarm is armed, no `read_frag` call is made, also
after any number of alarm deliveries; and `schedule_read` on such a request does the same
for every delay value. -/
theorem perform_read_unfragmented (w : World) (s : State) (address length offset : Nat)
    (hlen : length ≠ 0)
    (hfrag : w.is_frag_read (offset ||| ((s.disc2 <<< 31) % WORD)) length = false) :
    (perform_read w s address length offset).trace = s.trace ++
        [Event.OSCancelAlarm,
         Event.fsp_get_file (offset ||| ((s.disc2 <<< 31) % WORD)) length true] ∧
      (s.disc2 = 0 → (perform_read w s address length offset).trace = s.trace ++
        [Event.OSCancelAlarm, Event.fsp_get_file offset length true]) ∧
      (perform_read w s address length offset).read_alarm = none ∧
      (∀ n, run w n (perform_read w s address length offset)
        = perform_read w s address length offset) ∧
      (∀ (r : State) (ticks : Nat) (lock : Bool), r.dvd.length ≠ 0 →
        w.is_frag_read r.dvd.offset r.dvd.length = false →
        (schedule_read w r ticks lock).trace = r.trace ++
          [Event.OSCancelAlarm, Event.fsp_get_file r.dvd.offset r.dvd.length lock] ∧
        (schedule_read w r ticks lock).read_alarm = none) := by
  have key : perform_read w s address length offset =
      { s with read_alarm := none
               dvd := ⟨w.OSPhysicalToCached address, length,
                       offset ||| ((s.disc2 <<< 31) % WORD), false⟩
               trace := s.trace ++ [Event.OSCancelAlarm,
                 Event.fsp_get_file (offset ||| ((s.disc2 <<< 31) % WORD)) length true] } := by
    unfold perform_read
    rw [schedule_read_fetch w _ _ _ (by simpa using hlen) (by simpa using hfrag)]
  refine ⟨by rw [key], ?_, by rw [key], ?_, ?_⟩
  · intro h0
    rw [key]
    simp [h0]
  · intro n
    exact run_of_no_alarm w _ (by rw [key]) n
  · intro r ticks lock hr hf
    rw [schedule_read_fetch w r ticks lock hr hf]
    exact ⟨rfl, rfl⟩

/-- C1 at a concrete input: the spec's scenario `perform_read(0x1000, 64, 0)` with the first disc
selected. -/
theorem perform_read_unfragmented_witness :
    (perform_read worldPlain idle 4096 64 0).trace = idle.trace ++
        [Event.OSCancelAlarm, Event.fsp_get_file 0 64 true] :=
  ((perform_read_unfragmented worldPlain idle 4096 64 0 (by decide) rfl).2.1 rfl)

/-- Counterexample to C1 as stated: with the second disc selected (`*_disc2 = 1`),
`perform_read(0x1000, 64, 0)` on an unfragmented range fetches offset `0x80000000`, not
the original offset `0`. -/
theorem perform_read_second_disc_offset :
    worldPlain.is_frag_read (0 ||| ((1 <<< 31) % WORD)) 64 = false ∧
      (perform_read worldPlain { idle with disc2 := 1 } 4096 64 0).trace
        = [Event.OSCancelAlarm, Event.fsp_get_file 2147483648 64 true] ∧
      fetches (perform_read worldPlain { idle with disc2 := 1 } 4096 64 0).trace
        ≠ [(0, 64, true)] := by
  decide

/-- C3: for every delay and every lock value, `schedule_read` called while the remaining
length is 0 cancels the pending alarm, signals completion exactly once, arms no alarm,
dispatches no fetch and leaves `buffer`, `length`, `offset` and `frag` unchanged. -/
theorem schedule_read_zero_length (w : World) (s : State) (ticks : Nat) (lock : Bool)
    (h : s.dvd.length = 0) :
    (∃ evs, (schedule_read w s ticks lock).trace = s.trace ++ evs ∧
        evs = [Event.OSCancelAlarm, Event.di_complete_transfer] ∧
        completions evs = 1 ∧ alarmsSet evs = 0 ∧ fetches evs = [] ∧ fragCalls evs = []) ∧
      (schedule_read w s ticks lock).read_alarm = none ∧
      (schedule_read w s ticks lock).dvd = s.dvd ∧
      (∀ n, run w n (schedule_read w s ticks lock) = schedule_read w s ticks lock) := by
  rw [schedule_read_done w s ticks lock h]
  refine ⟨⟨_, rfl, rfl, by decide, by decide, by decide, by decide⟩, rfl, rfl, ?_⟩
  intro n
  exact run_of_no_alarm w _ rfl n

/-- C3 at a concrete input: an idle request with a stale alarm still pending. -/
theorem schedule_read_zero_length_witness :
    (schedule_read worldPlain { idle with read_alarm := some 7 } 300 false).trace
        = [Event.OSCancelAlarm, Event.di_complete_transfer] ∧
      (schedule_read worldPlain { idle with read_alarm := some 7 } 300 false).read_alarm
        = none :=
  ⟨by
    obtain ⟨evs, h1, h2, _⟩ :=
      (schedule_read_zero_length worldPlain { idle with read_alarm := some 7 } 300 false rfl).1
    rw [h1, h2]
    rfl,
   (schedule_read_zero_length worldPlain { idle with read_alarm := some 7 } 300 false rfl).2.1⟩

/-- C6 (against the spec's model of `end_read`): `device_reset` called while a trickle
sequence is pending (non-zero remaining length, `frag` set, alarm armed) cancels the alarm
as its first action, after which no delivery of the alarm and no stale call of
`trickle_read` makes a further `read_frag` call: the state does not change at all. -/
theorem device_reset_cancels_trickle (w : World) (s : State) (t : Nat)
    (hlen : s.dvd.length ≠ 0) (hfrag : s.dvd.frag = true) (harm : s.read_alarm = some t) :
    (∃ rest, (device_reset s).trace = s.trace ++ Event.OSCancelAlarm :: rest) ∧
      (device_reset s).read_alarm = none ∧
      (∀ n, run w n (device_reset s) = device_reset s) ∧
      trickle_read w (device_reset s) = device_reset s ∧
      (∀ n, fragCalls (run w n (device_reset s)).trace = fragCalls s.trace) ∧
      (fragCalls (run w 1 s).trace).length = (fragCalls s.trace).length + 1 := by
  have hrun : ∀ n, run w n (device_reset s) = device_reset s :=
    fun n => run_of_no_alarm w _ rfl n
  refine ⟨⟨[], rfl⟩, rfl, hrun, ?_, ?_, ?_⟩
  · simp [trickle_read, device_reset, end_read, OSCancelAlarm]
  · intro n
    rw [hrun n]
    simp [device_reset, end_read, OSCancelAlarm, fragCalls_append, fragCalls]
  · have h1 : run w 1 s = trickle_read w { s with read_alarm := none } := by
      simp [run, fire, harm]
    rw [h1]
    simp only [trickle_read, hlen, hfrag, ne_eq, not_false_eq_true, and_self, if_true]
    rw [schedule_read_fragCalls]
    simp [fragCalls_append, fragCalls]

/-! ## Scheduler: one delivery of the alarm -/

theorem schedule_read_pos (w : World) (s : State) (ticks : Nat) (lock : Bool) :
    (schedule_read w s ticks lock).dvd.buffer = s.dvd.buffer ∧
      (schedule_read w s ticks lock).dvd.length = s.dvd.length ∧
      (schedule_read w s ticks lock).dvd.offset = s.dvd.offset := by
  by_cases h : s.dvd.length = 0
  · rw [schedule_read_done w s ticks lock h]
    exact ⟨rfl, rfl, rfl⟩
  · cases hf : w.is_frag_read s.dvd.offset s.dvd.length
    · rw [schedule_read_fetch w s ticks lock h hf]
      exact ⟨rfl, rfl, rfl⟩
    · rw [schedule_read_arm w s ticks lock h hf]
      exact ⟨rfl, rfl, rfl⟩

/-- What `schedule_read` appends to the trace and leaves in the alarm, by outcome. -/
theorem schedule_read_cases (w : World) (s : State) (ticks : Nat) (lock : Bool) :
    ∃ tail, (schedule_read w s ticks lock).trace = s.trace ++ tail ∧
      ((s.dvd.length = 0 ∧ tail = [Event.OSCancelAlarm, Event.di_complete_transfer] ∧
          (schedule_read w s ticks lock).read_alarm = none) ∨
       (s.dvd.length ≠ 0 ∧ w.is_frag_read s.dvd.offset s.dvd.length = true ∧
          tail = [Event.OSCancelAlarm, Event.OSSetAlarm ticks] ∧
          (schedule_read w s ticks lock).read_alarm = some ticks ∧
          (schedule_read w s ticks lock).dvd.frag = true) ∨
       (s.dvd.length ≠ 0 ∧ w.is_frag_read s.dvd.offset s.dvd.length = false ∧
          tail = [Event.OSCancelAlarm, Event.fsp_get_file s.dvd.offset s.dvd.length lock] ∧
          (schedule_read w s ticks lock).read_alarm = none)) := by
  by_cases h : s.dvd.length = 0
  · rw [schedule_read_done w s ticks lock h]
    exact ⟨_, rfl, Or.inl ⟨h, rfl, rfl⟩⟩
  · cases hf : w.is_frag_read s.dvd.offset s.dvd.length
    · rw [schedule_read_fetch w s ticks lock h hf]
      exact ⟨_, rfl, Or.inr (Or.inr ⟨h, rfl, rfl, rfl⟩)⟩
    · rw [schedule_read_arm w s ticks lock h hf]
      exact ⟨_, rfl, Or.inr (Or.inl ⟨h, rfl, rfl, rfl, rfl⟩)⟩

theorem trickle_read_eq (w : World) (s : State) :
    trickle_read w s =
      if s.dvd.length ≠ 0 ∧ s.dvd.frag = true then
        schedule_read w (consume w s)
          (w.OSDiffTick (w.OSGetTick (s.clock + 1)) (w.OSGetTick s.clock)) true
      else s := rfl

/-- One delivery of the alarm to a pending fragmented request: `read_frag` is called on
the current position, the position advances by the returned size, and `schedule_read`
decides what follows. -/
theorem fire_armed (w : World) (s : State) (t : Nat)
    (harm : s.read_alarm = some t) (hlen : s.dvd.length ≠ 0) (hfrag : s.dvd.frag = true) :
    (fire w s).dvd.buffer
        = wrap (s.dvd.buffer + w.read_frag s.calls s.dvd.buffer s.dvd.length s.dvd.offset) ∧
      (fire w s).dvd.length
        = wrap (s.dvd.length - w.read_frag s.calls s.dvd.buffer s.dvd.length s.dvd.offset) ∧
      (fire w s).dvd.offset
        = wrap (s.dvd.offset + w.read_frag s.calls s.dvd.buffer s.dvd.length s.dvd.offset) ∧
      ∃ tail, (fire w s).trace = s.trace ++
          (Event.read_frag s.dvd.buffer s.dvd.length s.dvd.offset
              (w.read_frag s.calls s.dvd.buffer s.dvd.length s.dvd.offset) ::
            Event.dcache_store s.dvd.buffer
              (w.read_frag s.calls s.dvd.buffer s.dvd.length s.dvd.offset) :: tail) ∧
        (((fire w s).dvd.length = 0 ∧
            tail = [Event.OSCancelAlarm, Event.di_complete_transfer] ∧
            (fire w s).read_alarm = none) ∨
         ((fire w s).dvd.length ≠ 0 ∧
            w.is_frag_read (fire w s).dvd.offset (fire w s).dvd.length = true ∧
            (∃ d, tail = [Event.OSCancelAlarm, Event.OSSetAlarm d] ∧
              (fire w s).read_alarm = some d) ∧
            (fire w s).dvd.frag = true) ∨
         ((fire w s).dvd.length ≠ 0 ∧
            w.is_frag_read (fire w s).dvd.offset (fire w s).dvd.length = false ∧
            tail = [Event.OSCancelAlarm,
              Event.fsp_get_file (fire w s).dvd.offset (fire w s).dvd.length true] ∧
            (fire w s).read_alarm = none)) := by
  have hfire : fire w s = trickle_read w { s with read_alarm := none } := by
    simp [fire, harm]
  have hguard : ({ s with read_alarm := none } : State).dvd.length ≠ 0 ∧
      ({ s with read_alarm := none } : State).dvd.frag = true := ⟨hlen, hfrag⟩
  rw [hfire, trickle_read_eq, if_pos hguard]
  generalize hmid : consume w { s with read_alarm := none } = mid
  generalize hd : w.OSDiffTick (w.OSGetTick (s.clock + 1)) (w.OSGetTick s.clock) = d
  have hb : mid.dvd.buffer = wrap (s.dvd.buffer
      + w.read_frag s.calls s.dvd.buffer s.dvd.length s.dvd.offset) := by rw [← hmid]; rfl
  have hl : mid.dvd.length = wrap (s.dvd.length
      - w.read_frag s.calls s.dvd.buffer s.dvd.length s.dvd.offset) := by rw [← hmid]; rfl
  have ho : mid.dvd.offset = wrap (s.dvd.offset
      + w.read_frag s.calls s.dvd.buffer s.dvd.length s.dvd.offset) := by rw [← hmid]; rfl
  have ht : mid.trace = s.trace ++ [Event.read_frag s.dvd.buffer s.dvd.length s.dvd.offset
          (w.read_frag s.calls s.dvd.buffer s.dvd.length s.dvd.offset),
        Event.dcache_store s.dvd.buffer
          (w.read_frag s.calls s.dvd.buffer s.dvd.length s.dvd.offset)] := by rw [← hmid]; rfl
  obtain ⟨pb, pl, po⟩ := schedule_read_pos w mid d true
  obtain ⟨tail, htail, hcases⟩ := schedule_read_cases w mid d true
  refine ⟨by rw [pb, hb], by rw [pl, hl], by rw [po, ho], tail, ?_, ?_⟩
  · rw [htail, ht]
    simp
  · rw [pl, po]
    rcases hcases with ⟨h0, h1, h2⟩ | ⟨h0, h1, h2, h3, h4⟩ | ⟨h0, h1, h2, h3⟩
    · exact Or.inl ⟨h0, h1, h2⟩
    · exact Or.inr (Or.inl ⟨h0, h1, ⟨d, h2, h3⟩, h4⟩)
    · exact Or.inr (Or.inr ⟨h0, h1, h2, h3⟩)

/-- The start of a request: `perform_read` records the position and `schedule_read`
decides what follows. -/
theorem perform_read_start (w : World) (s : State) (address length offset : Nat) :
    (perform_read w s address length offset).dvd.buffer = w.OSPhysicalToCached address ∧
      (perform_read w s address length offset).dvd.length = length ∧
      (perform_read w s address length offset).dvd.offset = recordedOffset s offset ∧
      ∃ tail, (perform_read w s address length offset).trace = s.trace ++ tail ∧
        ((length = 0 ∧ tail = [Event.OSCancelAlarm, Event.di_complete_transfer] ∧
            (perform_read w s address length offset).read_alarm = none) ∨
         (length ≠ 0 ∧ w.is_frag_read (recordedOffset s offset) length = true ∧
            (∃ d, tail = [Event.OSCancelAlarm, Event.OSSetAlarm d] ∧
              (perform_read w s address length offset).read_alarm = some d) ∧
            (perform_read w s address length offset).dvd.frag = true) ∨
         (length ≠ 0 ∧ w.is_frag_read (recordedOffset s offset) length = false ∧
            tail = [Event.OSCancelAlarm,
              Event.fsp_get_file (recordedOffset s offset) length true] ∧
            (perform_read w s address length offset).read_alarm = none)) := by
  unfold perform_read
  generalize hmid : ({ s with dvd := { s.dvd with
      buffer := w.OSPhysicalToCached address
      length := length
      offset := offset ||| ((s.disc2 <<< 31) % WORD) } } : State) = mid
  have hb : mid.dvd.buffer = w.OSPhysicalToCached address := by rw [← hmid]
  have hl : mid.dvd.length = length := by rw [← hmid]
  have ho : mid.dvd.offset = recordedOffset s offset := by rw [← hmid]; rfl
  have ht : mid.trace = s.trace := by rw [← hmid]
  obtain ⟨pb, pl, po⟩ := schedule_read_pos w mid (w.OSMicrosecondsToTicks 300) true
  obtain ⟨tail, htail, hcases⟩ := schedule_read_cases w mid (w.OSMicrosecondsToTicks 300) true
  refine ⟨by rw [pb, hb], by rw [pl, hl], by rw [po, ho], tail, by rw [htail, ht], ?_⟩
  rw [hl, ho] at hcases
  rcases hcases with ⟨h0, h1, h2⟩ | ⟨h0, h1, h2, h3, h4⟩ | ⟨h0, h1, h2, h3⟩
  · exact Or.inl ⟨h0, h1, h2⟩
  · exact Or.inr (Or.inl ⟨h0, h1, ⟨_, h2, h3⟩, h4⟩)
  · exact Or.inr (Or.inr ⟨h0, h1, h2, h3⟩)


/-! ## Scheduler: chains of `read_frag` calls -/

theorem chained_snoc (cs : List FragCall) (c : Int) :
    ∀ b l o b1 l1 o1 : Nat, chained b l o cs → endPos b l o cs = (b1, l1, o1) →
      chained b l o (cs ++ [⟨b1, l1, o1, c⟩]) ∧
        endPos b l o (cs ++ [⟨b1, l1, o1, c⟩])
          = (wrap (b1 + c), wrap (l1 - c), wrap (o1 + c)) := by
  induction cs with
  | nil =>
    intro b l o b1 l1 o1 _ he
    simp only [endPos, Prod.mk.injEq] at he
    obtain ⟨rfl, rfl, rfl⟩ := he
    simp [chained, endPos]
  | cons x xs ih =>
    intro b l o b1 l1 o1 hc he
    obtain ⟨h1, h2, h3, h4⟩ := hc
    have := ih _ _ _ b1 l1 o1 h4 he
    exact ⟨⟨h1, h2, h3, this.1⟩, this.2⟩

theorem consumed_snoc (cs : List FragCall) (x : FragCall) :
    consumed (cs ++ [x]) = consumed cs + x.size := by
  simp [consumed]

theorem trickleInv_start (w : World) (s : State) (address length offset : Nat)
    (hfrag : length ≠ 0 → w.is_frag_read (recordedOffset s offset) length = true) :
    ∃ evs, TrickleInv w s.trace (w.OSPhysicalToCached address) length (recordedOffset s offset)
      0 (perform_read w s address length offset) evs := by
  obtain ⟨pb, pl, po, tail, ht, hc⟩ := perform_read_start w s address length offset
  refine ⟨tail, ?_⟩
  rcases hc with ⟨z, rfl, ha⟩ | ⟨nz, _, ⟨d, rfl, ha⟩, hfr⟩ | ⟨nz, hff, _, _⟩
  · subst z
    constructor <;>
      simp [fragCalls, chained, endPos, consumed, fetches, completions, ha, pb, pl, po, ht]
  · constructor <;>
      simp [fragCalls, chained, endPos, consumed, fetches, completions, nz, ha, hfr, pb, pl,
        po, ht]
  · rw [hfrag nz] at hff
    exact absurd hff (by decide)

theorem trickleInv_step (w : World) (t0 : List Event) (b0 l0 o0 n : Nat) (r : State)
    (evs : List Event) (hl0 : l0 < WORD)
    (hsize : ∀ i b l o, 0 ≤ w.read_frag i b l o ∧ w.read_frag i b l o ≤ l)
    (hnext : (fire w r).dvd.length ≠ 0 →
      w.is_frag_read (fire w r).dvd.offset (fire w r).dvd.length = true)
    (inv : TrickleInv w t0 b0 l0 o0 n r evs) :
    ∃ evs2, TrickleInv w t0 b0 l0 o0 (n + 1) (fire w r) evs2 := by
  obtain ⟨ht, hch, hend, hsz, hsum, hmod, hfe, hz, hco, hnz, hprog, hox⟩ := inv
  by_cases hl : r.dvd.length = 0
  · have hfire : fire w r = r := by simp [fire, hz hl]
    rw [hfire]
    refine ⟨evs, ht, hch, hend, hsz, hsum, hmod, hfe, hz, hco, hnz, ?_, hox⟩
    intro _
    rw [hl]
    exact Nat.zero_le _
  · obtain ⟨⟨t, harm⟩, hfr⟩ := hnz hl
    obtain ⟨fb, fl, fo, tail, ftr, fc⟩ := fire_armed w r t harm hl hfr
    obtain ⟨c0, c1⟩ := hsize r.calls r.dvd.buffer r.dvd.length r.dvd.offset
    have hp1 : (∀ i b l o, l ≠ 0 → 1 ≤ w.read_frag i b l o) →
        1 ≤ w.read_frag r.calls r.dvd.buffer r.dvd.length r.dvd.offset :=
      fun hp => hp _ _ _ _ hl
    generalize w.read_frag r.calls r.dvd.buffer r.dvd.length r.dvd.offset = c at *
    obtain ⟨hch2, hend2⟩ := chained_snoc (fragCalls evs) c _ _ _ _ _ _ hch hend
    have hrl : r.dvd.length ≤ l0 := by omega
    have hfl : ((fire w r).dvd.length : Int) = r.dvd.length - c := by
      rw [fl]; unfold wrap; unfold WORD at hl0; omega
    have hfc : fragCalls (evs ++ (Event.read_frag r.dvd.buffer r.dvd.length r.dvd.offset c ::
        Event.dcache_store r.dvd.buffer c :: tail))
        = fragCalls evs ++ [⟨r.dvd.buffer, r.dvd.length, r.dvd.offset, c⟩] := by
      rcases fc with ⟨_, rfl, _⟩ | ⟨_, _, ⟨d, rfl, _⟩, _⟩ | ⟨_, _, rfl, _⟩ <;>
        simp [fragCalls_append, fragCalls]
    refine ⟨evs ++ (Event.read_frag r.dvd.buffer r.dvd.length r.dvd.offset c ::
        Event.dcache_store r.dvd.buffer c :: tail), ?_⟩
    constructor
    · rw [ftr, ht, List.append_assoc]
    · rw [hfc]; exact hch2
    · rw [hfc, hend2, fb, fl, fo]
    · rw [hfc, consumed_snoc]
      simp only []
      omega
    · rw [hfc, consumed_snoc]
      simp only []
      omega
    · rw [fo, fl, ← hmod]
      unfold wrap WORD
      omega
    · rcases fc with ⟨_, rfl, _⟩ | ⟨_, _, ⟨d, rfl, _⟩, _⟩ | ⟨nz, hff, _, _⟩
      · simp [fetches_append, fetches, hfe]
      · simp [fetches_append, fetches, hfe]
      · rw [hnext nz] at hff
        exact absurd hff (by decide)
    · intro z
      rcases fc with ⟨_, _, ha⟩ | ⟨nz, _⟩ | ⟨nz, _⟩
      · exact ha
      · exact absurd z nz
      · exact absurd z nz
    · rw [if_neg hl] at hco
      rcases fc with ⟨z, rfl, _⟩ | ⟨nz, _, ⟨d, rfl, _⟩, _⟩ | ⟨nz, hff, _, _⟩
      · simp [completions, List.count_append] at hco ⊢
        simp [hco, z]
      · simp [completions, List.count_append] at hco ⊢
        simp [hco, nz]
      · rw [hnext nz] at hff
        exact absurd hff (by decide)
    · intro nz
      rcases fc with ⟨z, _⟩ | ⟨_, _, ⟨d, _, ha⟩, hfr2⟩ | ⟨nz2, hff, _, _⟩
      · exact absurd z nz
      · exact ⟨⟨d, ha⟩, hfr2⟩
      · rw [hnext nz2] at hff
        exact absurd hff (by decide)
    · intro hp
      have h1 := hprog hp
      have h2 := hp1 hp
      omega
    · intro hlt
      have h1 := hox hlt
      rw [hfc, consumed_snoc, fo]
      simp only []
      unfold wrap
      unfold WORD at hlt
      omega

theorem trickleInv_run (w : World) (s : State) (address length offset : Nat)
    (hlen : length < WORD)
    (hfrag : ∀ n, (run w n (perform_read w s address length offset)).dvd.length ≠ 0 →
      w.is_frag_read (run w n (perform_read w s address length offset)).dvd.offset
        (run w n (perform_read w s address length offset)).dvd.length = true)
    (hsize : ∀ i b l o, 0 ≤ w.read_frag i b l o ∧ w.read_frag i b l o ≤ l) (n : Nat) :
    ∃ evs, TrickleInv w s.trace (w.OSPhysicalToCached address) length (recordedOffset s offset)
      n (run w n (perform_read w s address length offset)) evs := by
  induction n with
  | zero =>
    have h0 := hfrag 0
    obtain ⟨_, pl, po, _⟩ := perform_read_start w s address length offset
    simp only [run, pl, po] at h0
    exact trickleInv_start w s address length offset h0
  | succ n ih =>
    obtain ⟨evs, inv⟩ := ih
    exact trickleInv_step w _ _ _ _ n _ evs hlen hsize (hfrag (n + 1)) inv

/-! ## C2 -/

/-- C2: for a request started by `perform_read` in which `is_frag_read` reports true at
every step and every `read_frag` call returns between 0 and the length it was given, after
any number of alarm deliveries: the `read_frag` calls made form a chain (each call is made
at the buffer, remaining length and offset where the previous one ended, in 32-bit
arithmetic), the request record is at the end of that chain, `offset + length` keeps its
value (modulo `2 ^ 32`, and exactly when the range does not cross `2 ^ 32`), consumed sizes
plus remaining length equal the original length, no fetch is dispatched, and
`di_complete_transfer` fires at most once, only when the consumed sizes add up to the
original length; it does fire within `length` deliveries when every call consumes at
least one byte. -/
theorem trickle_contiguous_total (w : World) (s : State) (address length offset : Nat)
    (hlen : length < WORD)
    (hfrag : ∀ n, (run w n (perform_read w s address length offset)).dvd.length ≠ 0 →
      w.is_frag_read (run w n (perform_read w s address length offset)).dvd.offset
        (run w n (perform_read w s address length offset)).dvd.length = true)
    (hsize : ∀ i b l o, 0 ≤ w.read_frag i b l o ∧ w.read_frag i b l o ≤ l) (n : Nat) :
    ∃ evs, (run w n (perform_read w s address length offset)).trace = s.trace ++ evs ∧
      chained (w.OSPhysicalToCached address) length (recordedOffset s offset)
        (fragCalls evs) ∧
      endPos (w.OSPhysicalToCached address) length (recordedOffset s offset) (fragCalls evs)
        = ((run w n (perform_read w s address length offset)).dvd.buffer,
           (run w n (perform_read w s address length offset)).dvd.length,
           (run w n (perform_read w s address length offset)).dvd.offset) ∧
      ((run w n (perform_read w s address length offset)).dvd.offset
        + (run w n (perform_read w s address length offset)).dvd.length) % WORD
        = (recordedOffset s offset + length) % WORD ∧
      (recordedOffset s offset + length < WORD →
        (run w n (perform_read w s address length offset)).dvd.offset
          + (run w n (perform_read w s address length offset)).dvd.length
          = recordedOffset s offset + length) ∧
      consumed (fragCalls evs)
        + (run w n (perform_read w s address length offset)).dvd.length = length ∧
      fetches evs = [] ∧
      completions evs ≤ 1 ∧
      (completions evs ≠ 0 → consumed (fragCalls evs) = length) ∧
      ((∀ i b l o, l ≠ 0 → 1 ≤ w.read_frag i b l o) → length ≤ n →
        completions evs = 1 ∧ consumed (fragCalls evs) = length) := by
  obtain ⟨evs, inv⟩ := trickleInv_run w s address length offset hlen hfrag hsize n
  obtain ⟨ht, hch, hend, hsz, hsum, hmod, hfe, hz, hco, hnz, hprog, hox⟩ := inv
  refine ⟨evs, ht, hch, hend, hmod, ?_, hsum, hfe, ?_, ?_, ?_⟩
  · intro hlt
    have := hox hlt
    omega
  · rw [hco]
    split <;> simp
  · intro h
    by_cases hl : (run w n (perform_read w s address length offset)).dvd.length = 0
    · rw [hl] at hsum
      simpa using hsum
    · rw [if_neg hl] at hco
      exact absurd hco h
  · intro hp hn
    have h1 := hprog hp
    have hl : (run w n (perform_read w s address length offset)).dvd.length = 0 := by omega
    rw [if_pos hl] at hco
    rw [hl] at hsum
    exact ⟨hco, by simpa using hsum⟩


/-! ## Scheduler: a request that stops being fragmented part-way -/

theorem run_add (w : World) (s : State) (k m : Nat) :
    run w (k + m) s = run w m (run w k s) := by
  induction m with
  | zero => rfl
  | succ m ih =>
    show fire w (run w (k + m) s) = fire w (run w m (run w k s))
    rw [ih]

theorem switch_invariant (w : World) (s : State) (address length offset k : Nat)
    (hfrag : ∀ i, i < k →
      (run w i (perform_read w s address length offset)).dvd.length ≠ 0 ∧
      w.is_frag_read (run w i (perform_read w s address length offset)).dvd.offset
        (run w i (perform_read w s address length offset)).dvd.length = true)
    (hstop : (run w k (perform_read w s address length offset)).dvd.length ≠ 0 ∧
      w.is_frag_read (run w k (perform_read w s address length offset)).dvd.offset
        (run w k (perform_read w s address length offset)).dvd.length = false) :
    ∀ i, i ≤ k →
      ∃ evs, (run w i (perform_read w s address length offset)).trace = s.trace ++ evs ∧
        (fragCalls evs).length = i ∧
        chained (w.OSPhysicalToCached address) length (recordedOffset s offset)
          (fragCalls evs) ∧
        endPos (w.OSPhysicalToCached address) length (recordedOffset s offset)
            (fragCalls evs)
          = ((run w i (perform_read w s address length offset)).dvd.buffer,
             (run w i (perform_read w s address length offset)).dvd.length,
             (run w i (perform_read w s address length offset)).dvd.offset) ∧
        completions evs = 0 ∧
        (i < k → fetches evs = [] ∧
          (∃ t, (run w i (perform_read w s address length offset)).read_alarm = some t) ∧
          (run w i (perform_read w s address length offset)).dvd.frag = true) ∧
        (i = k →
          fetches evs = [((run w k (perform_read w s address length offset)).dvd.offset,
            (run w k (perform_read w s address length offset)).dvd.length, true)] ∧
          evs.getLast? = some (Event.fsp_get_file
            (run w k (perform_read w s address length offset)).dvd.offset
            (run w k (perform_read w s address length offset)).dvd.length true) ∧
          (run w i (perform_read w s address length offset)).read_alarm = none) := by
  intro i
  induction i with
  | zero =>
    intro _
    obtain ⟨pb, pl, po, tail, ht, hc⟩ := perform_read_start w s address length offset
    refine ⟨tail, ht, ?_⟩
    simp only [run, pb, pl, po]
    rcases hc with ⟨z, _, _⟩ | ⟨nz, hft, ⟨d, rfl, ha⟩, hfr⟩ | ⟨nz, hff, rfl, ha⟩
    · exfalso
      rcases Nat.eq_zero_or_pos k with hk | hk
      · subst hk
        exact hstop.1 (by simpa [run, pl] using z)
      · exact (hfrag 0 hk).1 (by simpa [run, pl] using z)
    · refine ⟨rfl, trivial, rfl, by simp [completions], fun _ => ⟨rfl, ⟨d, ha⟩, hfr⟩, ?_⟩
      intro hk
      exfalso
      subst hk
      have := hstop.2
      simp only [run, pl, po] at this
      rw [hft] at this
      exact absurd this (by decide)
    · refine ⟨rfl, trivial, rfl, by simp [completions], ?_, ?_⟩
      · intro hk
        exfalso
        have := (hfrag 0 hk).2
        simp only [run, pl, po] at this
        rw [hff] at this
        exact absurd this (by decide)
      · intro hk
        subst hk
        simp only [run, pl, po]
        exact ⟨rfl, rfl, ha⟩
  | succ i ih =>
    intro hik
    obtain ⟨evs, ht, hn, hch, hend, hco, hlt, _⟩ := ih (by omega)
    obtain ⟨hfe, ⟨t, harm⟩, hfr⟩ := hlt (by omega)
    have hl := (hfrag i (by omega)).1
    have hnext : (i + 1 < k →
        (fire w (run w i (perform_read w s address length offset))).dvd.length ≠ 0 ∧
        w.is_frag_read (fire w (run w i (perform_read w s address length offset))).dvd.offset
          (fire w (run w i (perform_read w s address length offset))).dvd.length = true) :=
      fun h => hfrag (i + 1) h
    have hlast : (i + 1 = k →
        (fire w (run w i (perform_read w s address length offset))).dvd.length ≠ 0 ∧
        w.is_frag_read (fire w (run w i (perform_read w s address length offset))).dvd.offset
          (fire w (run w i (perform_read w s address length offset))).dvd.length = false) := by
      intro h
      subst h
      exact hstop
    have hk : (i + 1 = k → run w k (perform_read w s address length offset)
        = fire w (run w i (perform_read w s address length offset))) := by
      intro h
      subst h
      rfl
    simp only [run]
    generalize run w k (perform_read w s address length offset) = rk at *
    generalize run w i (perform_read w s address length offset) = r at *
    obtain ⟨fb, fl, fo, tail, ftr, fc⟩ := fire_armed w r t harm hl hfr
    generalize w.read_frag r.calls r.dvd.buffer r.dvd.length r.dvd.offset = c at *
    obtain ⟨hch2, hend2⟩ := chained_snoc (fragCalls evs) c _ _ _ _ _ _ hch hend
    have hfc : fragCalls (evs ++ (Event.read_frag r.dvd.buffer r.dvd.length r.dvd.offset c ::
        Event.dcache_store r.dvd.buffer c :: tail))
        = fragCalls evs ++ [⟨r.dvd.buffer, r.dvd.length, r.dvd.offset, c⟩] := by
      rcases fc with ⟨_, rfl, _⟩ | ⟨_, _, ⟨d, rfl, _⟩, _⟩ | ⟨_, _, rfl, _⟩ <;>
        simp [fragCalls_append, fragCalls]
    refine ⟨evs ++ (Event.read_frag r.dvd.buffer r.dvd.length r.dvd.offset c ::
        Event.dcache_store r.dvd.buffer c :: tail), ?_, ?_, ?_, ?_, ?_, ?_, ?_⟩
    · rw [ftr, ht, List.append_assoc]
    · rw [hfc]; simp [hn]
    · rw [hfc]; exact hch2
    · rw [hfc, hend2, fb, fl, fo]
    · rcases fc with ⟨z, _, _⟩ | ⟨_, _, ⟨d, rfl, _⟩, _⟩ | ⟨_, _, rfl, _⟩
      · exfalso
        rcases Nat.lt_or_ge (i + 1) k with h | h
        · exact (hnext h).1 z
        · exact (hlast (by omega)).1 z
      · simp [completions, List.count_append] at hco ⊢
        exact hco
      · simp [completions, List.count_append] at hco ⊢
        exact hco
    · intro h
      have hn2 := hnext h
      rcases fc with ⟨z, _, _⟩ | ⟨_, _, ⟨d, rfl, ha⟩, hfr2⟩ | ⟨_, hff, _, _⟩
      · exact absurd z hn2.1
      · exact ⟨by simp [fetches_append, fetches, hfe], ⟨d, ha⟩, hfr2⟩
      · rw [hn2.2] at hff
        exact absurd hff (by decide)
    · intro h
      have hn2 := hlast h
      rw [hk h]
      rcases fc with ⟨z, _, _⟩ | ⟨_, hft, _, _⟩ | ⟨_, _, rfl, ha⟩
      · exact absurd z hn2.1
      · rw [hn2.2] at hft
        exact absurd hft (by decide)
      · exact ⟨by simp [fetches_append, fetches, hfe], by simp, ha⟩


/-! ## C2 witness, C6 witness, C7 -/

/-- C2 at a concrete input: 100 bytes at offset 50, consumed as 40 + 40 + 20 in three deliveries,
after which completion has fired once and the sizes add up to 100. -/
theorem trickle_contiguous_total_witness :
    completions (run worldTrickle 3 (perform_read worldTrickle idle 8192 100 50)).trace = 1 ∧
      consumed (fragCalls (run worldTrickle 3
        (perform_read worldTrickle idle 8192 100 50)).trace) = 100 := by
  obtain ⟨evs, h1, _, _, _, _, _, _, _, h9, _⟩ :=
    trickle_contiguous_total worldTrickle idle 8192 100 50 (by decide) (fun _ _ => rfl)
      (fun i b l o => by
        show (0 : Int) ≤ (if l ≤ 40 then (l : Int) else 40) ∧
          (if l ≤ 40 then (l : Int) else 40) ≤ l
        split <;> omega) 3
  have he : evs = (run worldTrickle 3 (perform_read worldTrickle idle 8192 100 50)).trace := by
    rw [h1]
    rfl
  subst he
  exact ⟨by decide, h9 (by decide)⟩

/-- C6 at a concrete input: reset of a request with 100 bytes left and the alarm armed. -/
theorem device_reset_cancels_trickle_witness :
    (device_reset pending).read_alarm = none ∧
      trickle_read worldTrickle (device_reset pending) = device_reset pending ∧
      (fragCalls (run worldTrickle 1 pending).trace).length
        = (fragCalls pending.trace).length + 1 :=
  ⟨(device_reset_cancels_trickle worldTrickle pending 300 (by decide) rfl rfl).2.1,
   (device_reset_cancels_trickle worldTrickle pending 300 (by decide) rfl rfl).2.2.2.1,
   (device_reset_cancels_trickle worldTrickle pending 300 (by decide) rfl rfl).2.2.2.2.2⟩

/-- C7 (as amended): a request that is classified fragmented for its first `k` steps and
unfragmented at step `k`, with bytes still remaining, makes exactly `k` chained `read_frag`
calls and then dispatches the whole remaining `(offset, length)` as one `fsp_get_file` with
`lock = true`, which is the last event; no completion is signalled, no alarm stays armed,
and further alarm deliveries change nothing (no further `read_frag` call). -/
theorem trickle_then_single_fetch (w : World) (s : State) (address length offset k : Nat)
    (hfrag : ∀ i, i < k →
      (run w i (perform_read w s address length offset)).dvd.length ≠ 0 ∧
      w.is_frag_read (run w i (perform_read w s address length offset)).dvd.offset
        (run w i (perform_read w s address length offset)).dvd.length = true)
    (hstop : (run w k (perform_read w s address length offset)).dvd.length ≠ 0 ∧
      w.is_frag_read (run w k (perform_read w s address length offset)).dvd.offset
        (run w k (perform_read w s address length offset)).dvd.length = false) :
    ∃ evs, (run w k (perform_read w s address length offset)).trace = s.trace ++ evs ∧
      (fragCalls evs).length = k ∧
      chained (w.OSPhysicalToCached address) length (recordedOffset s offset)
        (fragCalls evs) ∧
      endPos (w.OSPhysicalToCached address) length (recordedOffset s offset) (fragCalls evs)
        = ((run w k (perform_read w s address length offset)).dvd.buffer,
           (run w k (perform_read w s address length offset)).dvd.length,
           (run w k (perform_read w s address length offset)).dvd.offset) ∧
      fetches evs = [((run w k (perform_read w s address length offset)).dvd.offset,
        (run w k (perform_read w s address length offset)).dvd.length, true)] ∧
      evs.getLast? = some (Event.fsp_get_file
        (run w k (perform_read w s address length offset)).dvd.offset
        (run w k (perform_read w s address length offset)).dvd.length true) ∧
      completions evs = 0 ∧
      (run w k (perform_read w s address length offset)).read_alarm = none ∧
      ∀ m, run w (k + m) (perform_read w s address length offset)
        = run w k (perform_read w s address length offset) := by
  obtain ⟨evs, ht, hn, hch, hend, hco, _, hlast⟩ :=
    switch_invariant w s address length offset k hfrag hstop k (Nat.le_refl k)
  obtain ⟨hfe, hgl, ha⟩ := hlast rfl
  refine ⟨evs, ht, hn, hch, hend, hfe, hgl, hco, ha, ?_⟩
  intro m
  rw [run_add]
  exact run_of_no_alarm w _ ha m

/-- C7 at a concrete input: `perform_read(0x2000, 100, 50)`, fragmented while the offset is below
100: `read_frag` consumes 40 then 10 bytes, reaching offset 100 with 50 bytes left, and
one fetch `fsp_get_file(100, 50, true)` follows. -/
theorem trickle_then_single_fetch_witness :
    (run worldUntil100 2 (perform_read worldUntil100 idle 8192 100 50)).trace =
        [Event.OSCancelAlarm, Event.OSSetAlarm 300,
         Event.read_frag 8192 100 50 40, Event.dcache_store 8192 40,
         Event.OSCancelAlarm, Event.OSSetAlarm 5,
         Event.read_frag 8232 60 90 10, Event.dcache_store 8232 10,
         Event.OSCancelAlarm, Event.fsp_get_file 100 50 true] ∧
      (fragCalls (run worldUntil100 2
        (perform_read worldUntil100 idle 8192 100 50)).trace).length = 2 ∧
      run worldUntil100 (2 + 5) (perform_read worldUntil100 idle 8192 100 50)
        = run worldUntil100 2 (perform_read worldUntil100 idle 8192 100 50) := by
  obtain ⟨evs, h1, h2, _, _, _, _, _, _, h9⟩ :=
    trickle_then_single_fetch worldUntil100 idle 8192 100 50 2
      (by
        intro i hi
        rcases (by omega : i = 0 ∨ i = 1) with h | h <;> subst h <;> decide)
      (by decide)
  have he : evs = (run worldUntil100 2 (perform_read worldUntil100 idle 8192 100 50)).trace := by
    rw [h1]
    rfl
  subst he
  exact ⟨by decide, h2, h9 5⟩

/-- Counterexample to C7 as stated: in the spec's scenario (`perform_read(0x2000, 100, 50)`,
fragmented for the whole range at the start and unfragmented once the offset is at least
90, `read_frag` ready to consume 40 then 10 bytes) only one `read_frag` call is made: it
reaches offset 90 with 60 bytes left, and the fetch is `fsp_get_file(90, 60, true)`, not a
fetch of the remaining 50 bytes at offset 100; further alarm deliveries change nothing. -/
theorem spec_scenario_switches_at_90 :
    worldUntil90.is_frag_read 50 100 = true ∧
      (run worldUntil90 1 (perform_read worldUntil90 idle 8192 100 50)).trace =
        [Event.OSCancelAlarm, Event.OSSetAlarm 300,
         Event.read_frag 8192 100 50 40, Event.dcache_store 8192 40,
         Event.OSCancelAlarm, Event.fsp_get_file 90 60 true] ∧
      run worldUntil90 2 (perform_read worldUntil90 idle 8192 100 50)
        = run worldUntil90 1 (perform_read worldUntil90 idle 8192 100 50) ∧
      run worldUntil90 3 (perform_read worldUntil90 idle 8192 100 50)
        = run worldUntil90 1 (perform_read worldUntil90 idle 8192 100 50) ∧
      fetches (run worldUntil90 3 (perform_read worldUntil90 idle 8192 100 50)).trace
        ≠ [(100, 50, true)] ∧
      (fragCalls (run worldUntil90 3 (perform_read worldUntil90 idle 8192 100 50)).trace).length
        ≠ 2 := by
  decide


/-! ## Transport: command words and register accesses -/

theorem cmd_read_word (reg : Nat) (h : reg < 65536) :
    (0x80 <<< 24 ||| reg <<< 8) % WORD = 2147483648 + reg * 256 := by
  have h1 : reg <<< 8 < 2 ^ 24 := by rw [Nat.shiftLeft_eq]; omega
  have h2 : (0x80 <<< 24 : Nat) = 2 ^ 24 * 128 := by decide
  rw [h2, ← Nat.mul_add_lt_is_or h1, Nat.shiftLeft_eq]
  unfold WORD
  omega

theorem cmd_write_word (reg : Nat) (h : reg < 65536) :
    (0xC0 <<< 24 ||| reg <<< 8) % WORD = 3221225472 + reg * 256 := by
  have h1 : reg <<< 8 < 2 ^ 24 := by rw [Nat.shiftLeft_eq]; omega
  have h2 : (0xC0 <<< 24 : Nat) = 2 ^ 24 * 192 := by decide
  rw [h2, ← Nat.mul_add_lt_is_or h1, Nat.shiftLeft_eq]
  unfold WORD
  omega

theorem tlen_small (len : Nat) (h1 : 1 ≤ len) (h4 : len ≤ 4) : tlen len = len := by
  unfold tlen WORD
  omega

theorem topBytes_one (val : Nat) (h : val < 256) : topBytes ((val <<< 24) % WORD) 1 = [val] := by
  simp only [topBytes, List.range_succ, List.range_zero, List.nil_append, List.map_cons,
    List.map_nil, Nat.shiftLeft_eq]
  unfold WORD
  norm_num
  omega

theorem adapterWrite_read_cmd (hw : Hw) (reg len : Nat) (hp : hw.phase = Phase.idle)
    (h : reg < 65536) :
    adapterWrite hw (2147483648 + reg * 256) len = { hw with phase := Phase.rd reg } := by
  have d1 : (2147483648 + reg * 256) / 2147483648 % 2 = 1 := by omega
  have d2 : ¬ (2147483648 + reg * 256) / 1073741824 % 2 = 1 := by omega
  have d3 : (2147483648 + reg * 256) / 256 % 65536 = reg := by omega
  unfold adapterWrite
  rw [hp]
  simp only []
  rw [if_pos d1, if_neg d2, d3]

theorem adapterWrite_write_cmd (hw : Hw) (reg len : Nat) (hp : hw.phase = Phase.idle)
    (h : reg < 65536) :
    adapterWrite hw (3221225472 + reg * 256) len = { hw with phase := Phase.wr reg } := by
  have d1 : (3221225472 + reg * 256) / 2147483648 % 2 = 1 := by omega
  have d2 : (3221225472 + reg * 256) / 1073741824 % 2 = 1 := by omega
  have d3 : (3221225472 + reg * 256) / 256 % 65536 = reg := by omega
  unfold adapterWrite
  rw [hp]
  simp only []
  rw [if_pos d1, if_pos d2, d3]

/-- Function `bba_in8` on the simulated adapter: the register's current byte is returned, one read
is logged. -/
theorem bba_in8_eq (hw : Hw) (reg : Nat) (h : reg < 65536) :
    bba_in8 hw reg = (hw.reg hw.reads reg % 256,
      { hw with
        reads := hw.reads + 1
        phase := Phase.idle
        exi := hw.exi ++ [Xfer.select, Xfer.imm_write (2147483648 + reg * 256) 4,
          Xfer.imm_read 1, Xfer.deselect]
        log := hw.log ++ [Access.rd reg (hw.reg hw.reads reg % 256)] }) := by
  unfold bba_in8 exi_imm_write
  rw [cmd_read_word reg h]
  dsimp only
  rw [adapterWrite_read_cmd _ reg (tlen 4) rfl h]
  simp [exi_select, exi_imm_read, exi_deselect, Nat.shiftLeft_shiftRight]

/-- Function `bba_out8` on the simulated adapter: the byte is stored in the register, one write is
logged. -/
theorem bba_out8_eq (hw : Hw) (reg val : Nat) (h : reg < 65536) (hv : val < 256) :
    bba_out8 hw reg val =
      { hw with
        reg := fun t r => if r = reg then val else hw.reg t r
        phase := Phase.idle
        exi := hw.exi ++ [Xfer.select, Xfer.imm_write (3221225472 + reg * 256) 4,
          Xfer.imm_write ((val <<< 24) % WORD) 1, Xfer.deselect]
        log := hw.log ++ [Access.wr reg [val]] } := by
  unfold bba_out8 exi_imm_write
  rw [cmd_write_word reg h]
  dsimp only
  rw [adapterWrite_write_cmd _ reg (tlen 4) rfl h]
  simp only [adapterWrite, tlen_small 1 (by decide) (by decide), topBytes_one val hv]
  simp [exi_select, exi_deselect]

/-- Function `bba_ins` on the simulated adapter: the page stored at the address is returned. -/
theorem bba_ins_eq (hw : Hw) (reg len : Nat) (h : reg < 65536) :
    bba_ins hw reg len = (hw.page reg,
      { hw with
        phase := Phase.idle
        exi := hw.exi ++ [Xfer.select, Xfer.imm_write (2147483648 + reg * 256) 4,
          Xfer.dma_read (((len + 31) % WORD) &&& bnot32 31), Xfer.deselect]
        log := hw.log ++ [Access.blk reg (((len + 31) % WORD) &&& bnot32 31)] }) := by
  unfold bba_ins exi_imm_write
  rw [cmd_read_word reg h]
  dsimp only
  rw [adapterWrite_read_cmd _ reg (tlen 4) rfl h]
  simp [exi_select, exi_dma_read, exi_deselect]


/-! ## C4 -/

/-- C4: `exi_try_lock(chan, dev, exi)` returns true exactly when the control state has the
LOCKED flag set, its recorded device is `dev`, `(chan, dev)` is not
`(EXI_CHANNEL_0, EXI_DEVICE_2)` and `(chan, dev)` is not `(*VAR_EXI_SLOT, EXI_DEVICE_0)`;
for both reserved pairs it returns false whatever the control state says. -/
theorem exi_try_lock_iff (k : ExiHeader) (slot chan : Int) (dev : Nat) (exi : EXIControl) :
    (exi_try_lock k slot chan dev exi = true ↔
      ((exi.state &&& k.EXI_STATE_LOCKED) ≠ 0 ∧ exi.dev = dev ∧
        ¬ (chan = k.EXI_CHANNEL_0 ∧ dev = k.EXI_DEVICE_2) ∧
        ¬ (chan = slot ∧ dev = k.EXI_DEVICE_0))) ∧
      exi_try_lock k slot k.EXI_CHANNEL_0 k.EXI_DEVICE_2 exi = false ∧
      exi_try_lock k slot slot k.EXI_DEVICE_0 exi = false := by
  refine ⟨?_, ?_, ?_⟩
  · unfold exi_try_lock
    by_cases h1 : (exi.state &&& k.EXI_STATE_LOCKED) = 0 ∨ exi.dev ≠ dev
    · rw [if_pos h1]
      rcases h1 with h | h <;> simp [h]
    · rw [if_neg h1]
      have h1a : (exi.state &&& k.EXI_STATE_LOCKED) ≠ 0 := fun h => h1 (Or.inl h)
      have h1b : exi.dev = dev := by
        by_contra h
        exact h1 (Or.inr h)
      by_cases h2 : chan = k.EXI_CHANNEL_0 ∧ dev = k.EXI_DEVICE_2
      · rw [if_pos h2]
        simp [h2]
      · rw [if_neg h2]
        by_cases h3 : chan = slot ∧ dev = k.EXI_DEVICE_0
        · rw [if_pos h3]
          simp [h3]
        · rw [if_neg h3]
          simp only [true_iff]
          exact ⟨h1a, h1b, h2, h3⟩
  · unfold exi_try_lock
    split
    · rfl
    · simp
  · unfold exi_try_lock
    split
    · rfl
    · split
      · rfl
      · simp

/-! ## Receive engine -/

set_option maxRecDepth 100000 in
theorem byte_masks :
    ∀ x, x < 256 →
      (x &&& bnot32 2) % 256 = x &&& 253 ∧
      (x &&& 2 ≠ 0 → x &&& 253 = x - 2) ∧
      (x &&& 2 ≠ 0 → x &&& 2 = 2) ∧
      (x &&& 253) &&& 253 = x &&& 253 ∧
      (x &&& 253) &&& 2 = 0 ∧
      ((x &&& bnot32 2) % 256) &&& 253 = x &&& 253 ∧
      ((x &&& bnot32 2) % 256) &&& 2 = 0 ∧
      (((x &&& bnot32 2) ||| 4) % 256) &&& 249 = x &&& 249 ∧
      (((x &&& bnot32 2) ||| 4) % 256) &&& 2 = 0 ∧
      (((x &&& bnot32 2) ||| 4) % 256) &&& 4 = 4 := by
  decide


/-- Function `bba_receive` on an empty ring: two register reads, nothing else. -/
theorem bba_receive_empty (k : Sizes) (hw : Hw) (rwp : Nat) (hrwp : rwp < 256)
    (hW : ∀ t, hw.reg t BBA_RWP = rwp) (hR : ∀ t, hw.reg t BBA_RRP = rwp) :
    bba_receive k hw = (false,
      { hw with
        reads := hw.reads + 2
        phase := Phase.idle
        exi := hw.exi ++ [Xfer.select, Xfer.imm_write (2147483648 + BBA_RWP * 256) 4,
          Xfer.imm_read 1, Xfer.deselect, Xfer.select,
          Xfer.imm_write (2147483648 + BBA_RRP * 256) 4, Xfer.imm_read 1, Xfer.deselect]
        log := hw.log ++ [Access.rd BBA_RWP rwp, Access.rd BBA_RRP rwp] }) := by
  have e : rwp % 256 = rwp := Nat.mod_eq_of_lt hrwp
  unfold bba_receive
  simp [bba_in8_eq _ BBA_RWP (by decide), bba_in8_eq _ BBA_RRP (by decide), hW, hR, e]

/-- Function `bba_receive` with a frame pending at `rrp`: the frame is dispatched, the read pointer
moves to the frame's `next`, and the result tells whether that is still short of the write
pointer. -/
theorem bba_receive_frame (k : Sizes) (hw : Hw) (rwp rrp : Nat) (h : bba_header_t)
    (hrwp : rwp < 256) (hrrp : rrp < 256) (hne : rrp ≠ rwp) (hnext : h.next < 256)
    (hpage : hw.page (rrp * 256) = h)
    (hW : ∀ t, hw.reg t BBA_RWP = rwp) (hR : ∀ t, hw.reg t BBA_RRP = rrp) :
    (bba_receive k hw).1 = decide (h.next ≠ rwp) ∧
      (bba_receive k hw).2.input = hw.input ++
        [⟨rrp, h, wrap ((h.length : Int) - k.sizeof_bba_header_t)⟩] ∧
      (bba_receive k hw).2.page = hw.page ∧
      (∀ t, (bba_receive k hw).2.reg t BBA_RWP = rwp) ∧
      (∀ t, (bba_receive k hw).2.reg t BBA_RRP = h.next) ∧
      (bba_receive k hw).2.log = hw.log ++
        [Access.rd BBA_RWP rwp, Access.rd BBA_RRP rrp,
         Access.blk (rrp * 256) (((k.sizeof_bba_page_t + 31) % WORD) &&& bnot32 31),
         Access.wr BBA_RRP [h.next], Access.rd BBA_RWP rwp] := by
  have e1 : rwp % 256 = rwp := Nat.mod_eq_of_lt hrwp
  have e2 : rrp % 256 = rrp := Nat.mod_eq_of_lt hrrp
  have e3 : h.next % 256 = h.next := Nat.mod_eq_of_lt hnext
  have e4 : (rrp <<< 8) % 65536 = rrp * 256 := by rw [Nat.shiftLeft_eq]; omega
  have e5 : rrp * 256 < 65536 := by omega
  have e6 : BBA_RWP ≠ BBA_RRP := by decide
  unfold bba_receive
  simp only [bba_in8_eq _ BBA_RWP (by decide), bba_in8_eq _ BBA_RRP (by decide), hW, hR, e1, e2,
    e4, bba_ins_eq _ _ _ e5, hpage, e3, eth_input,
    bba_out8_eq _ BBA_RRP h.next (by decide) hnext, if_neg e6]
  simp [hne, hW, e6]


/-! ## C5 -/

/-- A ring holding one more frame than `hs` is drained in `hs.length + 1` calls. -/
theorem drain_frames (k : Sizes) (rwp : Nat) (hrwp : rwp < 256) :
    ∀ (hs : List bba_header_t) (h : bba_header_t) (hw : Hw) (rrp fuel : Nat),
      rrp < 256 → (∀ t, hw.reg t BBA_RWP = rwp) → (∀ t, hw.reg t BBA_RRP = rrp) →
      ring hw.page rwp rrp (h :: hs) → hs.length + 1 ≤ fuel →
      ∃ hw2, drain k fuel hw = some (List.replicate hs.length true ++ [false], hw2) ∧
        hw2.input = hw.input ++ walk k rrp (h :: hs) ∧
        (∀ t, hw2.reg t BBA_RRP = rwp) ∧ (∀ t, hw2.reg t BBA_RWP = rwp) := by
  intro hs
  induction hs with
  | nil =>
    intro h hw rrp fuel hrrp hW hR hring hfuel
    obtain ⟨hne, hpage, hnext, hend⟩ := hring
    have hend2 : h.next = rwp := hend
    obtain ⟨r1, r2, _, r4, r5, _⟩ :=
      bba_receive_frame k hw rwp rrp h hrwp hrrp hne hnext hpage hW hR
    obtain ⟨f, rfl⟩ : ∃ f, fuel = f + 1 := ⟨fuel - 1, by omega⟩
    refine ⟨(bba_receive k hw).2, ?_, ?_, ?_, r4⟩
    · simp [drain, r1, hend2]
    · rw [r2]
      rfl
    · intro t
      rw [r5 t, hend2]
  | cons h2 hs ih =>
    intro h hw rrp fuel hrrp hW hR hring hfuel
    obtain ⟨hne, hpage, hnext, hrest⟩ := hring
    have hne2 : h.next ≠ rwp := hrest.1
    obtain ⟨r1, r2, r3, r4, r5, _⟩ :=
      bba_receive_frame k hw rwp rrp h hrwp hrrp hne hnext hpage hW hR
    obtain ⟨f, rfl⟩ : ∃ f, fuel = f + 1 := ⟨fuel - 1, by omega⟩
    have hring2 : ring (bba_receive k hw).2.page rwp h.next (h2 :: hs) := by
      rw [r3]
      exact hrest
    obtain ⟨hw2, d1, d2, d3, d4⟩ :=
      ih h2 (bba_receive k hw).2 h.next f hnext r4 r5 hring2
        (by simp only [List.length_cons] at hfuel; omega)
    refine ⟨hw2, ?_, ?_, d3, d4⟩
    · simp [drain, r1, hne2, d1, List.replicate_succ]
    · rw [d2, r2, List.append_assoc]
      rfl

theorem walk_length (k : Sizes) (fs : List bba_header_t) :
    ∀ rrp, (walk k rrp fs).length = fs.length := by
  induction fs with
  | nil => intro _; rfl
  | cons h hs ih => intro rrp; simp [walk, ih]

theorem walk_sizes (k : Sizes) (fs : List bba_header_t) :
    ∀ rrp, ∀ d ∈ walk k rrp fs,
      d.size = wrap ((d.page.length : Int) - k.sizeof_bba_header_t) := by
  induction fs with
  | nil => intro _ d hd; simp [walk] at hd
  | cons h hs ih =>
    intro rrp d hd
    simp only [walk, List.mem_cons] at hd
    rcases hd with rfl | hd
    · rfl
    · exact ih _ d hd

theorem walk_pages (k : Sizes) (fs : List bba_header_t) :
    List.map Dispatch.page (walk k rrp fs) = fs := by
  induction fs generalizing rrp with
  | nil => rfl
  | cons h hs ih => simp [walk, ih]

/-- C5: on a simulated ring holding the frames `fs` (each page's `next` pointing at the
following frame, the last at the write pointer, the write pointer not moving), calling
`bba_receive` until it returns false takes `max N 1` calls for `N = fs.length`, all
returning true but the last, dispatches exactly the `N` frames to `eth_input` in ring
order, each with payload size header length minus header size (in `size_t` arithmetic),
and leaves the read pointer equal to the write pointer; for `N = 0` the single call
dispatches nothing and writes no register. -/
theorem ring_drain (k : Sizes) (hw : Hw) (rwp rrp fuel : Nat) (fs : List bba_header_t)
    (hrwp : rwp < 256) (hrrp : rrp < 256)
    (hW : ∀ t, hw.reg t BBA_RWP = rwp) (hR : ∀ t, hw.reg t BBA_RRP = rrp)
    (hring : ring hw.page rwp rrp fs) (hfuel : max fs.length 1 ≤ fuel) :
    ∃ hw2, drain k fuel hw = some (List.replicate (fs.length - 1) true ++ [false], hw2) ∧
      hw2.input = hw.input ++ walk k rrp fs ∧
      (walk k rrp fs).length = fs.length ∧
      List.map Dispatch.page (walk k rrp fs) = fs ∧
      (∀ d ∈ walk k rrp fs,
        d.size = wrap ((d.page.length : Int) - k.sizeof_bba_header_t) ∧
        (k.sizeof_bba_header_t ≤ d.page.length → d.page.length < WORD →
          d.size = d.page.length - k.sizeof_bba_header_t)) ∧
      (∀ t, hw2.reg t BBA_RRP = rwp) ∧ (∀ t, hw2.reg t BBA_RWP = rwp) ∧
      (fs = [] → hw2.log = hw.log ++ [Access.rd BBA_RWP rwp, Access.rd BBA_RRP rrp] ∧
        hw2.input = hw.input) := by
  have hsz : ∀ d ∈ walk k rrp fs,
      d.size = wrap ((d.page.length : Int) - k.sizeof_bba_header_t) ∧
      (k.sizeof_bba_header_t ≤ d.page.length → d.page.length < WORD →
        d.size = d.page.length - k.sizeof_bba_header_t) := by
    intro d hd
    have h1 := walk_sizes k fs rrp d hd
    refine ⟨h1, ?_⟩
    intro h2 h3
    rw [h1]
    unfold wrap
    unfold WORD at h3
    omega
  cases fs with
  | nil =>
    have hrr : rrp = rwp := hring
    subst hrr
    obtain ⟨f, rfl⟩ : ∃ f, fuel = f + 1 := ⟨fuel - 1, by simp at hfuel; omega⟩
    have he := bba_receive_empty k hw rrp hrwp hW hR
    refine ⟨(bba_receive k hw).2, ?_, ?_, rfl, rfl, hsz, ?_, ?_, ?_⟩
    · simp [drain, he]
    · rw [he]
      simp [walk]
    · intro t
      rw [he]
      exact hR t
    · intro t
      rw [he]
      exact hW t
    · intro _
      rw [he]
      exact ⟨rfl, rfl⟩
  | cons h hs =>
    obtain ⟨hw2, d1, d2, d3, d4⟩ :=
      drain_frames k rwp hrwp hs h hw rrp fuel hrrp hW hR hring
        (by simp only [List.length_cons] at hfuel; omega)
    refine ⟨hw2, ?_, d2, walk_length k _ rrp, walk_pages k _, hsz, d3, d4, ?_⟩
    · simpa using d1
    · intro hnil
      exact absurd hnil (by simp)

/-- C5 at a concrete input: read pointer 1, write pointer 3, two frames on pages 1 and 2. -/
theorem ring_drain_witness :
    (drain ⟨4, 256⟩ 5 hwSample).map (fun r => (r.1, r.2.input)) =
      some ([true, false], [⟨1, ⟨2, 64⟩, 60⟩, ⟨2, ⟨3, 104⟩, 100⟩]) := by
  obtain ⟨hw2, h1, h2, _⟩ :=
    ring_drain ⟨4, 256⟩ hwSample 3 1 5 [⟨2, 64⟩, ⟨3, 104⟩] (by decide) (by decide)
      (fun _ => rfl) (fun _ => rfl) (by simp [ring, hwSample]) (by decide)
  rw [h1, Option.map_some', h2]
  rfl

/-! ## C10 -/

/-- C10: `bba_interrupt` reads the interrupt register once; `bba_receive` runs exactly when
the RI bit of the value `ir` read is set (with RI clear the write follows the read
directly); the value written back is `ir` with the RI bit cleared when RI was set and
`bba_receive` reported more frames pending, and `ir` otherwise, so all bits other than RI
are always written back unchanged and RI is written back set exactly when it was set and
the ring was found drained. -/
theorem bba_interrupt_writeback (k : Sizes) (hw : Hw) :
    (bba_in8 hw BBA_IR).1 = hw.reg hw.reads BBA_IR % 256 ∧
      ((hw.reg hw.reads BBA_IR % 256) &&& BBA_IR_RI = 0 →
        bba_interrupt k hw
          = bba_out8 (bba_in8 hw BBA_IR).2 BBA_IR (hw.reg hw.reads BBA_IR % 256) ∧
        (bba_interrupt k hw).log = hw.log ++
          [Access.rd BBA_IR (hw.reg hw.reads BBA_IR % 256),
           Access.wr BBA_IR [hw.reg hw.reads BBA_IR % 256]] ∧
        (bba_interrupt k hw).input = hw.input) ∧
      ((hw.reg hw.reads BBA_IR % 256) &&& BBA_IR_RI ≠ 0 →
        ∃ v, bba_interrupt k hw
            = bba_out8 (bba_receive k (bba_in8 hw BBA_IR).2).2 BBA_IR v ∧
          (bba_interrupt k hw).log
            = (bba_receive k (bba_in8 hw BBA_IR).2).2.log ++ [Access.wr BBA_IR [v]] ∧
          (bba_interrupt k hw).input = (bba_receive k (bba_in8 hw BBA_IR).2).2.input ∧
          v = (if (bba_receive k (bba_in8 hw BBA_IR).2).1 = true
                then hw.reg hw.reads BBA_IR % 256 - BBA_IR_RI
                else hw.reg hw.reads BBA_IR % 256) ∧
          v &&& 253 = (hw.reg hw.reads BBA_IR % 256) &&& 253 ∧
          v &&& BBA_IR_RI
            = (if (bba_receive k (bba_in8 hw BBA_IR).2).1 = true then 0 else BBA_IR_RI)) := by
  have hlt : hw.reg hw.reads BBA_IR % 256 < 256 := Nat.mod_lt _ (by decide)
  have hin := bba_in8_eq hw BBA_IR (by decide)
  have hir : (bba_in8 hw BBA_IR).1 = hw.reg hw.reads BBA_IR % 256 := by rw [hin]
  obtain ⟨m1, m2, m5, m3, m4, _⟩ := byte_masks _ hlt
  refine ⟨hir, ?_, ?_⟩
  · intro h0
    have e : bba_interrupt k hw
        = bba_out8 (bba_in8 hw BBA_IR).2 BBA_IR (hw.reg hw.reads BBA_IR % 256) := by
      unfold bba_interrupt
      simp only [hir]
      rw [if_neg (by simpa using h0)]
    refine ⟨e, ?_, ?_⟩
    · rw [e, bba_out8_eq _ _ _ (by decide) hlt, hin]
      simp
    · rw [e, bba_out8_eq _ _ _ (by decide) hlt, hin]
  · intro h1
    have hbit : (hw.reg hw.reads BBA_IR % 256) &&& 2 = 2 := m5 h1
    by_cases hm : (bba_receive k (bba_in8 hw BBA_IR).2).1 = true
    · have hv : (hw.reg hw.reads BBA_IR % 256 &&& 253) < 256 :=
        Nat.lt_of_le_of_lt Nat.and_le_left hlt
      have e : bba_interrupt k hw = bba_out8 (bba_receive k (bba_in8 hw BBA_IR).2).2 BBA_IR
          (hw.reg hw.reads BBA_IR % 256 &&& 253) := by
        unfold bba_interrupt
        simp only [hir]
        rw [if_pos h1, if_pos hm]
        show bba_out8 _ BBA_IR ((hw.reg hw.reads BBA_IR % 256 &&& bnot32 2) % 256) = _
        rw [m1]
      refine ⟨_, e, ?_, ?_, ?_, m3, ?_⟩
      · rw [e, bba_out8_eq _ _ _ (by decide) hv]
      · rw [e, bba_out8_eq _ _ _ (by decide) hv]
      · rw [if_pos hm]
        exact m2 h1
      · rw [if_pos hm]
        exact m4
    · have e : bba_interrupt k hw = bba_out8 (bba_receive k (bba_in8 hw BBA_IR).2).2 BBA_IR
          (hw.reg hw.reads BBA_IR % 256) := by
        unfold bba_interrupt
        simp only [hir]
        rw [if_pos h1, if_neg hm]
      refine ⟨_, e, ?_, ?_, ?_, rfl, ?_⟩
      · rw [e, bba_out8_eq _ _ _ (by decide) hlt]
      · rw [e, bba_out8_eq _ _ _ (by decide) hlt]
      · rw [if_neg hm]
      · rw [if_neg hm]
        exact hbit

/-- C10 at a concrete input: the receive interrupt is pending and two frames are in the ring, so
`bba_receive` reports more frames and the value written back is `0xFF` without RI. -/
theorem bba_interrupt_writeback_witness :
    (bba_interrupt ⟨4, 256⟩ hwIrq).log
      = (bba_receive ⟨4, 256⟩ (bba_in8 hwIrq BBA_IR).2).2.log ++ [Access.wr BBA_IR [253]] := by
  obtain ⟨v, _, h2, _, h4, _⟩ := (bba_interrupt_writeback ⟨4, 256⟩ hwIrq).2.2 (by decide)
  have hv : v = 253 := by
    rw [h4]
    decide
  subst hv
  exact h2

/-! ## C9 -/

theorem adapterWrite_exi (hw : Hw) (data len : Nat) : (adapterWrite hw data len).exi = hw.exi := by
  unfold adapterWrite
  split
  · split
    · split <;> rfl
    · rfl
  · rfl
  · rfl

theorem exi_imm_write_exi (hw : Hw) (data len : Nat) :
    (exi_imm_write hw data len).exi = hw.exi ++ [Xfer.imm_write data len] := by
  unfold exi_imm_write
  rw [adapterWrite_exi]

theorem exi_immex_write_last (mem : Nat → Nat) (hw : Hw) (buf len : Nat) (h : len ≤ 4) :
    exi_immex_write mem hw buf len = exi_imm_write hw (load32 mem buf) len := by
  rw [exi_immex_write]
  have e1 : min len 4 = len := by omega
  simp only [e1, Nat.sub_self, ne_eq, not_true_eq_false, if_false]

theorem exi_immex_write_more (mem : Nat → Nat) (hw : Hw) (buf len : Nat) (h : 4 < len) :
    exi_immex_write mem hw buf len
      = exi_immex_write mem (exi_imm_write hw (load32 mem buf) 4) ((buf + 4) % WORD)
          (len - 4) := by
  rw [exi_immex_write]
  have e1 : min len 4 = 4 := by omega
  have e2 : len - 4 ≠ 0 := by omega
  simp only [e1, ne_eq, e2, not_false_eq_true, if_true]

theorem chunks_last (buf len : Nat) (h1 : 1 ≤ len) (h4 : len ≤ 4) (hb : buf < WORD) :
    chunks buf len = [(buf, len)] := by
  have e : (len + 3) / 4 = 1 := by omega
  have e2 : min 4 len = len := by omega
  unfold chunks
  rw [e]
  simp only [List.range_succ, List.range_zero, List.nil_append, List.map_cons, List.map_nil,
    Nat.mul_zero, Nat.add_zero, Nat.sub_zero, Nat.mod_eq_of_lt hb, e2]

theorem chunks_more (buf len : Nat) (h : 4 < len) (hb : buf < WORD) :
    chunks buf len = (buf, 4) :: chunks ((buf + 4) % WORD) (len - 4) := by
  have e : (len + 3) / 4 = (len - 4 + 3) / 4 + 1 := by omega
  have e2 : min 4 len = 4 := by omega
  unfold chunks
  rw [e, List.range_succ_eq_map, List.map_cons, List.map_map]
  simp only [Nat.mul_zero, Nat.add_zero, Nat.sub_zero, e2, Nat.mod_eq_of_lt hb]
  congr 1
  apply List.map_congr_left
  intro i _
  simp only [Function.comp, Prod.mk.injEq]
  unfold WORD
  constructor
  · omega
  · congr 1
    omega

theorem exi_immex_write_exi (mem : Nat → Nat) (len : Nat) :
    ∀ (hw : Hw) (buf : Nat), 1 ≤ len → buf < WORD →
      (exi_immex_write mem hw buf len).exi
        = hw.exi ++ (chunks buf len).map (fun c => Xfer.imm_write (load32 mem c.1) c.2) := by
  induction len using Nat.strong_induction_on with
  | _ len ih =>
    intro hw buf h1 hb
    by_cases h4 : len ≤ 4
    · rw [exi_immex_write_last mem hw buf len h4, exi_imm_write_exi, chunks_last buf len h1 h4 hb]
      rfl
    · rw [exi_immex_write_more mem hw buf len (by omega),
        ih (len - 4) (by omega) _ _ (by omega) (Nat.mod_lt _ (by decide)),
        exi_imm_write_exi, chunks_more buf len (by omega) hb]
      simp

theorem chunks_sum (len : Nat) :
    ∀ buf, 1 ≤ len → buf < WORD → ((chunks buf len).map Prod.snd).sum = len := by
  induction len using Nat.strong_induction_on with
  | _ len ih =>
    intro buf h1 hb
    by_cases h4 : len ≤ 4
    · rw [chunks_last buf len h1 h4 hb]
      simp
    · rw [chunks_more buf len (by omega) hb]
      simp only [List.map_cons, List.sum_cons]
      rw [ih (len - 4) (by omega) _ (by omega) (Nat.mod_lt _ (by decide))]
      omega

/-- C9: for every length `len ≥ 1`, `exi_immex_write(buf, len)` terminates and issues
exactly `ceil(len / 4)` immediate writes (the number `n = (len + 3) / 4`, the one with
`4 * (n - 1) < len ≤ 4 * n`); the `i`-th one sends the word at buffer position
`buf + 4 * i` with `min(4, len - 4 * i)` bytes, so every write has 1 to 4 bytes, every
write but the last has 4, consecutive writes take consecutive buffer positions, and the
lengths sum to `len`. -/
theorem exi_immex_write_chunks (mem : Nat → Nat) (hw : Hw) (buf len : Nat)
    (hlen : 1 ≤ len) (hbuf : buf < WORD) :
    (exi_immex_write mem hw buf len).exi
        = hw.exi ++ (chunks buf len).map (fun c => Xfer.imm_write (load32 mem c.1) c.2) ∧
      (chunks buf len).length = (len + 3) / 4 ∧
      4 * ((len + 3) / 4 - 1) < len ∧ len ≤ 4 * ((len + 3) / 4) ∧
      (∀ i, i < (len + 3) / 4 →
        (chunks buf len)[i]? = some ((buf + 4 * i) % WORD, min 4 (len - 4 * i)) ∧
        1 ≤ min 4 (len - 4 * i) ∧ min 4 (len - 4 * i) ≤ 4 ∧
        tlen (min 4 (len - 4 * i)) = min 4 (len - 4 * i) ∧
        (i + 1 < (len + 3) / 4 → min 4 (len - 4 * i) = 4 ∧
          (chunks buf len)[i + 1]?
            = some (((buf + 4 * i) % WORD + min 4 (len - 4 * i)) % WORD,
                min 4 (len - 4 * (i + 1))))) ∧
      ((chunks buf len).map Prod.snd).sum = len := by
  have hget : ∀ i, i < (len + 3) / 4 →
      (chunks buf len)[i]? = some ((buf + 4 * i) % WORD, min 4 (len - 4 * i)) := by
    intro i hi
    simp [chunks, List.getElem?_map, List.getElem?_range hi]
  refine ⟨exi_immex_write_exi mem len hw buf hlen hbuf, by simp [chunks], by omega, by omega, ?_,
    chunks_sum len buf hlen hbuf⟩
  intro i hi
  refine ⟨hget i hi, by omega, by omega, tlen_small _ (by omega) (by omega), ?_⟩
  intro hi2
  have e4 : min 4 (len - 4 * i) = 4 := by omega
  refine ⟨e4, ?_⟩
  rw [hget (i + 1) hi2, e4]
  congr 2
  unfold WORD
  omega

/-- C9 at a concrete input: seven bytes go out as a 4-byte and a 3-byte write. -/
theorem exi_immex_write_chunks_witness :
    (exi_immex_write (fun a => a) hwSample 100 7).exi
      = hwSample.exi ++ (chunks 100 7).map
          (fun c => Xfer.imm_write (load32 (fun a => a) c.1) c.2) ∧
      chunks 100 7 = [(100, 4), (104, 3)] :=
  ⟨(exi_immex_write_chunks (fun a => a) hwSample 100 7 (by decide) (by decide)).1, by decide⟩


/-! ## Transmit engine -/

theorem topBytes_load32 (mem : Nat → Nat) (p x : Nat) (hx : x ≤ 4) :
    topBytes (load32 mem p) x = frameBytes mem p x := by
  have b0 := Nat.mod_lt (mem p) (by decide : 0 < 256)
  have b1 := Nat.mod_lt (mem (p + 1)) (by decide : 0 < 256)
  have b2 := Nat.mod_lt (mem (p + 2)) (by decide : 0 < 256)
  have b3 := Nat.mod_lt (mem (p + 3)) (by decide : 0 < 256)
  have e0 : load32 mem p / 16777216 % 256 = mem p % 256 := by unfold load32; omega
  have e1 : load32 mem p / 65536 % 256 = mem (p + 1) % 256 := by unfold load32; omega
  have e2 : load32 mem p / 256 % 256 = mem (p + 2) % 256 := by unfold load32; omega
  have e3 : load32 mem p % 256 = mem (p + 3) % 256 := by unfold load32; omega
  rcases (by omega : x = 0 ∨ x = 1 ∨ x = 2 ∨ x = 3 ∨ x = 4) with h | h | h | h | h <;> subst h <;>
    simp [topBytes, frameBytes, List.range_succ, e0, e1, e2, e3]

theorem adapterWrite_window (hw : Hw) (a data n : Nat) (hp : hw.phase = Phase.wr a) :
    adapterWrite hw data n =
      { hw with
        log := hw.log ++ [Access.wr a (topBytes data n)]
        reg := match (topBytes data n).getLast? with
          | some v => fun t r => if r = a then v else hw.reg t r
          | none => hw.reg } := by
  unfold adapterWrite
  rw [hp]

/-- One immediate write inside a write window at address `a`. -/
theorem exi_imm_write_window (hw : Hw) (a data len : Nat) (hp : hw.phase = Phase.wr a)
    (h1 : 1 ≤ len) (h4 : len ≤ 4) :
    (exi_imm_write hw data len).phase = Phase.wr a ∧
      (exi_imm_write hw data len).reads = hw.reads ∧
      (exi_imm_write hw data len).page = hw.page ∧
      (exi_imm_write hw data len).input = hw.input ∧
      (∀ t r, r ≠ a → (exi_imm_write hw data len).reg t r = hw.reg t r) ∧
      (exi_imm_write hw data len).log = hw.log ++ [Access.wr a (topBytes data len)] := by
  unfold exi_imm_write
  rw [adapterWrite_window { hw with exi := hw.exi ++ [Xfer.imm_write data len] } a data
    (tlen len) hp, tlen_small len h1 h4]
  refine ⟨hp, rfl, rfl, rfl, ?_, rfl⟩
  intro t r hr
  dsimp only
  cases (topBytes data len).getLast? with
  | none => rfl
  | some v => simp [hr]

/-- Function `exi_immex_write` inside a write window at address `a`: the adapter sees the buffer
bytes chunk by chunk; nothing else changes. -/
theorem exi_immex_write_window (mem : Nat → Nat) (a len : Nat) :
    ∀ (hw : Hw) (buf : Nat), 1 ≤ len → buf < WORD → hw.phase = Phase.wr a →
      (exi_immex_write mem hw buf len).phase = Phase.wr a ∧
      (exi_immex_write mem hw buf len).reads = hw.reads ∧
      (exi_immex_write mem hw buf len).page = hw.page ∧
      (exi_immex_write mem hw buf len).input = hw.input ∧
      (∀ t r, r ≠ a → (exi_immex_write mem hw buf len).reg t r = hw.reg t r) ∧
      (exi_immex_write mem hw buf len).log = hw.log ++
        (chunks buf len).map (fun c => Access.wr a (frameBytes mem c.1 c.2)) := by
  induction len using Nat.strong_induction_on with
  | _ len ih =>
    intro hw buf h1 hb hp
    by_cases h4 : len ≤ 4
    · rw [exi_immex_write_last mem hw buf len h4, chunks_last buf len h1 h4 hb]
      obtain ⟨w1, w2, w3, w4, w5, w6⟩ := exi_imm_write_window hw a (load32 mem buf) len hp h1 h4
      refine ⟨w1, w2, w3, w4, w5, ?_⟩
      rw [w6, topBytes_load32 mem buf len h4]
      rfl
    · rw [exi_immex_write_more mem hw buf len (by omega), chunks_more buf len (by omega) hb]
      obtain ⟨w1, w2, w3, w4, w5, w6⟩ :=
        exi_imm_write_window hw a (load32 mem buf) 4 hp (by decide) (by decide)
      obtain ⟨v1, v2, v3, v4, v5, v6⟩ :=
        ih (len - 4) (by omega) (exi_imm_write hw (load32 mem buf) 4) ((buf + 4) % WORD)
          (by omega) (Nat.mod_lt _ (by decide)) w1
      refine ⟨v1, by rw [v2, w2], by rw [v3, w3], by rw [v4, w4], ?_, ?_⟩
      · intro t r hr
        rw [v5 t r hr, w5 t r hr]
      · rw [v6, w6, topBytes_load32 mem buf 4 (by decide)]
        simp

theorem frameBytes_split (mem : Nat → Nat) (buf len : Nat) (h : 4 < len) :
    frameBytes mem buf len = frameBytes mem buf 4 ++ frameBytes mem (buf + 4) (len - 4) := by
  have e : len = 4 + (len - 4) := by omega
  unfold frameBytes
  conv => lhs; rw [e, List.range_add]
  rw [List.map_append, List.map_map]
  congr 1
  apply List.map_congr_left
  intro j _
  simp only [Function.comp, Nat.add_assoc]

theorem fifoBytes_chunks (mem : Nat → Nat) (len : Nat) :
    ∀ buf, 1 ≤ len → buf + len ≤ WORD →
      fifoBytes ((chunks buf len).map
        (fun c => Access.wr BBA_WRTXFIFOD (frameBytes mem c.1 c.2))) = frameBytes mem buf len := by
  induction len using Nat.strong_induction_on with
  | _ len ih =>
    intro buf h1 hb
    have hbw : buf < WORD := by omega
    by_cases h4 : len ≤ 4
    · rw [chunks_last buf len h1 h4 hbw]
      simp [fifoBytes]
    · have hm : (buf + 4) % WORD = buf + 4 := Nat.mod_eq_of_lt (by omega)
      rw [chunks_more buf len (by omega) hbw, hm, frameBytes_split mem buf len (by omega)]
      simp only [List.map_cons, fifoBytes, if_true]
      rw [ih (len - 4) (by omega) (buf + 4) (by omega) (by omega)]

/-- Function `bba_outs` on the simulated adapter: the buffer bytes reach the addressed register in
chunks of at most four; no register read is served and no other register changes. -/
theorem bba_outs_window (mem : Nat → Nat) (hw : Hw) (reg val len : Nat) (h : reg < 65536)
    (h1 : 1 ≤ len) (hb : val < WORD) :
    (bba_outs mem hw reg val len).reads = hw.reads ∧
      (bba_outs mem hw reg val len).page = hw.page ∧
      (bba_outs mem hw reg val len).input = hw.input ∧
      (∀ t r, r ≠ reg → (bba_outs mem hw reg val len).reg t r = hw.reg t r) ∧
      (bba_outs mem hw reg val len).log = hw.log ++
        (chunks val len).map (fun c => Access.wr reg (frameBytes mem c.1 c.2)) := by
  unfold bba_outs exi_imm_write
  rw [cmd_write_word reg h]
  dsimp only
  rw [adapterWrite_write_cmd _ reg (tlen 4) rfl h]
  obtain ⟨_, v2, v3, v4, v5, v6⟩ := exi_immex_write_window mem reg len
    ({ (exi_select hw) with
        exi := (exi_select hw).exi ++ [Xfer.imm_write (3221225472 + reg * 256) 4]
        phase := Phase.wr reg } : Hw) val h1 hb rfl
  refine ⟨v2, v3, v4, v5, v6⟩

/-- The spin loop of `bba_transmit`: it reads NCRA until a value with both start bits clear
arrives, and gives up (`none`) when the bound on reads comes first. -/
theorem bba_transmit_spin_until (j : Nat) :
    ∀ (hw : Hw) (fuel : Nat),
      (∀ i, i < j → (hw.reg (hw.reads + i) BBA_NCRA % 256)
        &&& (BBA_NCRA_ST0 ||| BBA_NCRA_ST1) ≠ 0) →
      (hw.reg (hw.reads + j) BBA_NCRA % 256) &&& (BBA_NCRA_ST0 ||| BBA_NCRA_ST1) = 0 →
      j < fuel →
      ∃ hw1, bba_transmit_spin fuel hw = some hw1 ∧
        hw1.reg = hw.reg ∧ hw1.page = hw.page ∧ hw1.input = hw.input ∧
        hw1.reads = hw.reads + (j + 1) ∧
        hw1.log = hw.log ++ (List.range (j + 1)).map
          (fun i => Access.rd BBA_NCRA (hw.reg (hw.reads + i) BBA_NCRA % 256)) := by
  induction j with
  | zero =>
    intro hw fuel _ hfree hfuel
    obtain ⟨f, rfl⟩ : ∃ f, fuel = f + 1 := ⟨fuel - 1, by omega⟩
    refine ⟨(bba_in8 hw BBA_NCRA).2, ?_, ?_⟩
    · unfold bba_transmit_spin
      rw [bba_in8_eq hw BBA_NCRA (by decide)]
      simp only [Nat.add_zero] at hfree
      simp [hfree]
    · rw [bba_in8_eq hw BBA_NCRA (by decide)]
      simp [List.range_succ]
  | succ j ih =>
    intro hw fuel hbusy hfree hfuel
    obtain ⟨f, rfl⟩ : ∃ f, fuel = f + 1 := ⟨fuel - 1, by omega⟩
    have hb0 := hbusy 0 (by omega)
    simp only [Nat.add_zero] at hb0
    have hstep : bba_transmit_spin (f + 1) hw = bba_transmit_spin f (bba_in8 hw BBA_NCRA).2 := by
      conv => lhs; unfold bba_transmit_spin
      rw [bba_in8_eq hw BBA_NCRA (by decide)]
      simp only [ne_eq]
      rw [if_pos hb0]
    have hin := bba_in8_eq hw BBA_NCRA (by decide)
    obtain ⟨hw1, s1, s2, s3, s4, s5, s6⟩ := ih (bba_in8 hw BBA_NCRA).2 f
      (by
        intro i hi
        rw [hin]
        have := hbusy (i + 1) (by omega)
        simpa [Nat.add_assoc, Nat.add_comm 1 i] using this)
      (by
        rw [hin]
        simpa [Nat.add_assoc, Nat.add_comm 1 j] using hfree)
      (by omega)
    refine ⟨hw1, by rw [hstep, s1], ?_, ?_, ?_, ?_, ?_⟩
    · rw [s2, hin]
    · rw [s3, hin]
    · rw [s4, hin]
    · rw [s5, hin]
      simp only []
      omega
    · rw [s6, hin]
      simp only []
      rw [List.range_succ_eq_map (j + 1), List.map_cons, List.map_map, List.append_assoc]
      simp [Function.comp, Nat.add_assoc, Nat.add_comm 1]

theorem bba_transmit_spin_busy (fuel : Nat) :
    ∀ (hw : Hw),
      (∀ i, i < fuel → (hw.reg (hw.reads + i) BBA_NCRA % 256)
        &&& (BBA_NCRA_ST0 ||| BBA_NCRA_ST1) ≠ 0) →
      bba_transmit_spin fuel hw = none := by
  induction fuel with
  | zero => intro _ _; rfl
  | succ f ih =>
    intro hw hbusy
    have hb0 := hbusy 0 (by omega)
    simp only [Nat.add_zero] at hb0
    have hin := bba_in8_eq hw BBA_NCRA (by decide)
    have hstep : bba_transmit_spin (f + 1) hw = bba_transmit_spin f (bba_in8 hw BBA_NCRA).2 := by
      conv => lhs; unfold bba_transmit_spin
      rw [hin]
      simp only [ne_eq]
      rw [if_pos hb0]
    rw [hstep]
    apply ih
    intro i hi
    rw [hin]
    have := hbusy (i + 1) (by omega)
    simpa [Nat.add_assoc, Nat.add_comm 1 i] using this

theorem fifoBytes_append (a b : List Access) :
    fifoBytes (a ++ b) = fifoBytes a ++ fifoBytes b := by
  induction a with
  | nil => rfl
  | cons x xs ih =>
    cases x with
    | rd r v => simpa [fifoBytes] using ih
    | blk r v => simpa [fifoBytes] using ih
    | wr r bs =>
      by_cases h : r = BBA_WRTXFIFOD
      · simp [fifoBytes, h, ih]
      · simp [fifoBytes, h, ih]

/-- The whole of `bba_transmit` on the simulated adapter, when the `j`-th NCRA value is the
first with both start bits clear. -/
theorem bba_transmit_log (mem : Nat → Nat) (hw : Hw) (data size j fuel : Nat)
    (hsize : 1 ≤ size) (hdata : data + size ≤ WORD)
    (hbusy : ∀ i, i < j → (hw.reg (hw.reads + i) BBA_NCRA % 256)
      &&& (BBA_NCRA_ST0 ||| BBA_NCRA_ST1) ≠ 0)
    (hfree : (hw.reg (hw.reads + j) BBA_NCRA % 256) &&& (BBA_NCRA_ST0 ||| BBA_NCRA_ST1) = 0)
    (hfuel : j < fuel) :
    ∃ hw2, bba_transmit fuel mem hw data size = some hw2 ∧
      hw2.log = hw.log ++
        (List.range (j + 1)).map
          (fun i => Access.rd BBA_NCRA (hw.reg (hw.reads + i) BBA_NCRA % 256)) ++
        (chunks data size).map (fun c => Access.wr BBA_WRTXFIFOD (frameBytes mem c.1 c.2)) ++
        [Access.rd BBA_NCRA (hw.reg (hw.reads + (j + 1)) BBA_NCRA % 256),
         Access.wr BBA_NCRA [(((hw.reg (hw.reads + (j + 1)) BBA_NCRA % 256)
           &&& bnot32 BBA_NCRA_ST0) ||| BBA_NCRA_ST1) % 256]] := by
  obtain ⟨hw1, s1, s2, _, _, s5, s6⟩ := bba_transmit_spin_until j hw fuel hbusy hfree hfuel
  obtain ⟨o1, _, _, o4, o5⟩ :=
    bba_outs_window mem hw1 BBA_WRTXFIFOD data size (by decide) hsize (by omega)
  have hne : BBA_NCRA ≠ BBA_WRTXFIFOD := by decide
  have hin := bba_in8_eq (bba_outs mem hw1 BBA_WRTXFIFOD data size) BBA_NCRA (by decide)
  rw [o1, o4 _ _ hne, s2, s5, o5, s6] at hin
  have e : bba_transmit fuel mem hw data size = some
      (bba_out8 (bba_in8 (bba_outs mem hw1 BBA_WRTXFIFOD data size) BBA_NCRA).2 BBA_NCRA
        ((((bba_in8 (bba_outs mem hw1 BBA_WRTXFIFOD data size) BBA_NCRA).1
          &&& bnot32 BBA_NCRA_ST0) ||| BBA_NCRA_ST1) % 256)) := by
    unfold bba_transmit
    rw [s1]
  refine ⟨_, e, ?_⟩
  rw [bba_out8_eq _ BBA_NCRA _ (by decide) (Nat.mod_lt _ (by decide)), hin]
  simp

/-! ## C8 -/

/-- C8 (as amended): `bba_transmit` spins while at least one of the start bits ST0, ST1 of
NCRA is set.  When the `j`-th NCRA value is the first with both bits clear, it makes exactly
`j + 1` reads, then writes the frame bytes to the write-FIFO register, then reads NCRA once
more and writes back that fresh value with ST0 cleared, ST1 set and every other bit
unchanged; while every value read has a start bit set it keeps spinning and writes
nothing. -/
theorem bba_transmit_waits_both_clear (mem : Nat → Nat) (hw : Hw) (data size j fuel : Nat)
    (hsize : 1 ≤ size) (hdata : data + size ≤ WORD)
    (hbusy : ∀ i, i < j → (hw.reg (hw.reads + i) BBA_NCRA % 256)
      &&& (BBA_NCRA_ST0 ||| BBA_NCRA_ST1) ≠ 0)
    (hfree : (hw.reg (hw.reads + j) BBA_NCRA % 256) &&& (BBA_NCRA_ST0 ||| BBA_NCRA_ST1) = 0)
    (hfuel : j < fuel) :
    (∃ hw2 fifo v w, bba_transmit fuel mem hw data size = some hw2 ∧
      hw2.log = hw.log ++
        (List.range (j + 1)).map
          (fun i => Access.rd BBA_NCRA (hw.reg (hw.reads + i) BBA_NCRA % 256)) ++
        fifo ++ [Access.rd BBA_NCRA v, Access.wr BBA_NCRA [w]] ∧
      (∀ a ∈ fifo, ∃ bs, a = Access.wr BBA_WRTXFIFOD bs) ∧
      fifoBytes fifo = frameBytes mem data size ∧
      v = hw.reg (hw.reads + (j + 1)) BBA_NCRA % 256 ∧
      w &&& 249 = v &&& 249 ∧ w &&& BBA_NCRA_ST0 = 0 ∧ w &&& BBA_NCRA_ST1 = BBA_NCRA_ST1) ∧
      (∀ (h0 : Hw) (f : Nat),
        (∀ i, i < f → (h0.reg (h0.reads + i) BBA_NCRA % 256)
          &&& (BBA_NCRA_ST0 ||| BBA_NCRA_ST1) ≠ 0) →
        bba_transmit f mem h0 data size = none) := by
  constructor
  · obtain ⟨hw2, t1, t2⟩ := bba_transmit_log mem hw data size j fuel hsize hdata hbusy hfree hfuel
    obtain ⟨_, _, _, _, _, _, _, m7, m8, m9⟩ :=
      byte_masks (hw.reg (hw.reads + (j + 1)) BBA_NCRA % 256) (Nat.mod_lt _ (by decide))
    refine ⟨hw2, _, _, _, t1, t2, ?_, fifoBytes_chunks mem size data hsize hdata, rfl, m7, m8, m9⟩
    intro a ha
    simp only [List.mem_map] at ha
    obtain ⟨c, _, rfl⟩ := ha
    exact ⟨_, rfl⟩
  · intro h0 f hb
    unfold bba_transmit
    rw [bba_transmit_spin_busy f h0 hb]

/-- C8 at a concrete input: NCRA reads `ST0`, `ST0`, then 0; a 7-byte frame at address 100 reaches
the FIFO after the third read. -/
theorem bba_transmit_waits_both_clear_witness :
    (bba_transmit 8 (fun a => a) hwStream 100 7).map (fun h => fifoBytes h.log)
      = some [100, 101, 102, 103, 104, 105, 106] := by
  obtain ⟨⟨hw2, fifo, v, w, h1, h2, _, h4, _⟩, _⟩ :=
    bba_transmit_waits_both_clear (fun a => a) hwStream 100 7 2 8 (by decide) (by decide)
      (by
        intro i hi
        rcases (by omega : i = 0 ∨ i = 1) with h | h <;> subst h <;> decide)
      (by decide) (by decide)
  rw [h1, Option.map_some', h2]
  simp only [fifoBytes_append, h4]
  simp [fifoBytes, frameBytes, hwStream, List.range_succ, BBA_NCRA, BBA_WRTXFIFOD]

/-- Counterexample to C8 as stated: the first NCRA value read has ST0 set and ST1 clear
(the two start bits are not both set), yet the frame bytes are not written after that
read: `bba_transmit` reads NCRA twice more, until both bits are clear; and against an
adapter that keeps ST0 (only) set it is still spinning after 16 reads. -/
theorem bba_transmit_spins_on_single_start_bit :
    (hwStream.reg 0 BBA_NCRA % 256) &&& (BBA_NCRA_ST0 ||| BBA_NCRA_ST1)
        ≠ (BBA_NCRA_ST0 ||| BBA_NCRA_ST1) ∧
      (bba_transmit 8 (fun a => a) hwStream 100 7).map Hw.log =
        some [Access.rd BBA_NCRA 2, Access.rd BBA_NCRA 2, Access.rd BBA_NCRA 0,
          Access.wr BBA_WRTXFIFOD [100, 101, 102, 103],
          Access.wr BBA_WRTXFIFOD [104, 105, 106],
          Access.rd BBA_NCRA 0, Access.wr BBA_NCRA [4]] ∧
      (bba_transmit 16 (fun a => a) hwBusy 100 7).map Hw.log = none := by
  refine ⟨by decide, ?_, by decide⟩
  obtain ⟨hw2, t1, t2⟩ := bba_transmit_log (fun a => a) hwStream 100 7 2 8 (by decide)
    (by decide)
    (by
      intro i hi
      rcases (by omega : i = 0 ∨ i = 1) with h | h <;> subst h <;> decide)
    (by decide) (by decide)
  rw [t1, Option.map_some', t2]
  decide

end Bba
